import Mathlib

/-!
Shallow embedding of `src/parsers/fields/list.rs` from the mail-parser
repository: the comma-separated header list parser
(`MessageStream::parse_comma_separared`), its helper state machine
(`ListParser` with `add_token` and `add_tokens_to_list`), and the result
type `HeaderValue` restricted to the variants this parser produces.

Bytes are modelled as `Nat`.  Strings produced by the parser are
modelled as the byte sequences they hold before lossy UTF-8 decoding
(`String::from_utf8_lossy` lives in the Rust standard library, outside
this repository; it is content-preserving on the ASCII bytes all the
claims speak about).

The byte cursor (`MessageStream`) and the RFC 2047 decoder are not part
of the repository sources under verification; they are modelled from the
spec (section 6, External Interfaces): the cursor is the pair of the
remaining byte list and the numeric offset of bytes already consumed
(offsets are 1-based from the parser's perspective: after consuming the
byte at index `i`, `offset()` returns `i + 1`), `peek_char` and
`try_next_is_space` inspect the head of the remaining bytes without
consuming, `checkpoint` / `restore` are reflected by re-using the saved
remaining-list and offset, and the decoder is an oracle `Decoder`.
-/

/-- A byte of the input buffer, as a natural number. -/
abbrev Byte := Nat

/-- Modelled from the spec: the external RFC 2047 encoded-word decoder
(`MessageStream::decode_rfc2047`), which is not part of the sources
under `src/`.  `dec pos = some (t, k)` means: invoked with the cursor at
offset `pos` (just after the leading `=` byte of a candidate encoded
word), the decoder succeeds, produces decoded text `t` and leaves the
cursor `k` bytes further.  `none` models decode failure, after which the
caller restores the checkpointed cursor. -/
abbrev Decoder := Nat → Option (List Byte × Nat)

/-- A fragment pushed into `ListParser::tokens`: either an injected
single-space separator, a byte slice of the input
(`data[token_start - 1 .. token_end]`, stored by its bounds), or the
decoded text of an encoded word.  The Rust code pushes `Cow<str>`
values; the fragment kind is kept so that injected separator spaces can
be told apart from literal data, and a fragment is rendered to its bytes
by `renderFrag`. -/
inductive Frag where
  | space : Frag
  | slice (s e : Nat) : Frag
  | decoded (t : List Byte) : Frag
deriving DecidableEq, Repr

/-- The parser state of `struct ListParser` in `list.rs`. -/
structure ListParser where
  token_start : Nat
  token_end : Nat
  is_token_start : Bool
  tokens : List Frag
  list : List (List Byte)
deriving DecidableEq, Repr

/-- The fresh parser state built at the top of `parse_comma_separared`. -/
def ListParser.init : ListParser :=
  { token_start := 0, token_end := 0, is_token_start := true,
    tokens := [], list := [] }

/-- The byte slice `data[a .. b]` (half-open, 0-based). -/
def extract (data : List Byte) (a b : Nat) : List Byte :=
  (data.take b).drop a

/-- Render one token fragment to the bytes it contributes to an entry. -/
def renderFrag (data : List Byte) : Frag → List Byte
  | Frag.space => [32]
  | Frag.slice s e => extract data (s - 1) e
  | Frag.decoded t => t

/-- Concatenation of all fragments of `tokens`, as performed (directly
or via the single-fragment shortcut, which yields the same bytes) by
`add_tokens_to_list`. -/
def renderTokens (data : List Byte) (l : List Frag) : List Byte :=
  (l.map (renderFrag data)).flatten

/-- `ListParser::add_token`: if a word is open (`token_start > 0`), push
a separating space when `tokens` is non-empty, push the byte slice
`data[token_start - 1 .. token_end]`, optionally push a trailing space,
and reset `token_start` to the "no word open" sentinel. -/
def add_token (p : ListParser) (add_space : Bool) : ListParser :=
  if p.token_start > 0 then
    { p with
      tokens :=
        (let t0 := if p.tokens = [] then p.tokens else p.tokens ++ [Frag.space]
         let t1 := t0 ++ [Frag.slice p.token_start p.token_end]
         if add_space then t1 ++ [Frag.space] else t1),
      token_start := 0,
      is_token_start := true }
  else p

/-- `ListParser::add_tokens_to_list`: if `tokens` is non-empty,
concatenate the fragments into one entry, append it to `list` and clear
`tokens`.  (The Rust single-fragment shortcut avoids an allocation but
produces the same bytes.) -/
def add_tokens_to_list (data : List Byte) (p : ListParser) : ListParser :=
  if p.tokens = [] then p
  else { p with tokens := [], list := p.list ++ [renderTokens data p.tokens] }

/-- The shared tail of the scan loop body for a byte that received no
special treatment: clear `is_token_start`, open a word at the current
offset if none is open, and extend `token_end` to the current offset.
`off` is `self.offset()` after consuming the byte. -/
def literalByte (p : ListParser) (off : Nat) : ListParser :=
  { p with
    is_token_start := false,
    token_start := if p.token_start = 0 then off else p.token_start,
    token_end := off }

/-- `parser.tokens.push(token.into())` for a decoded encoded word. -/
def pushDecoded (p : ListParser) (t : List Byte) : ListParser :=
  { p with tokens := p.tokens ++ [Frag.decoded t] }

/-- The header-value result type, restricted to the three variants
`parse_comma_separared` produces. -/
inductive HeaderValue where
  | Empty : HeaderValue
  | Text (t : List Byte) : HeaderValue
  | TextList (l : List (List Byte)) : HeaderValue
deriving DecidableEq, Repr

/-- The entry strings appearing in a result. -/
def resultEntries : HeaderValue → List (List Byte)
  | HeaderValue.Empty => []
  | HeaderValue.Text t => [t]
  | HeaderValue.TextList l => l

/-- The result shaping performed at the return site of
`parse_comma_separared`: `match parser.list.len() { 1 => Text(pop),
0 => Empty, _ => TextList }`. -/
def shapeResult (l : List (List Byte)) : HeaderValue :=
  match l with
  | [] => HeaderValue.Empty
  | [e] => HeaderValue.Text e
  | _ => HeaderValue.TextList l

/-- The scan loop of `parse_comma_separared`.

Arguments: full input `data`, decoder oracle `dec`, a structural fuel
(always instantiated with more than the length of the remaining input,
which bounds the number of iterations since every iteration consumes at
least one byte), the remaining input bytes, the current offset `pos`
(number of bytes already consumed), and the parser state.

Besides the returned `HeaderValue` the embedding carries two ghost
components used only to state theorems: the trace of parser states at
the top of every loop iteration, and the final entry list at the moment
the function returns (`some list` when it returns at an unfolded
newline after the final flush, `none` when the byte stream is exhausted
and the Rust code returns `HeaderValue::Empty`). -/
def parseLoopT (data : List Byte) (dec : Decoder) :
    Nat → List Byte → Nat → ListParser →
    HeaderValue × List ListParser × Option (List (List Byte))
  | _, [], _, p => (HeaderValue.Empty, [p], none)
  | 0, _ :: _, _, p => (HeaderValue.Empty, [p], none)
  | fuel + 1, ch :: rest, pos, p =>
    let step :=
      if ch = 10 then
        let p1 := add_token p false
        if rest.head? = some 32 ∨ rest.head? = some 9 then
          parseLoopT data dec fuel rest (pos + 1) p1
        else
          let p2 := add_tokens_to_list data p1
          (shapeResult p2.list, [], some p2.list)
      else if ch = 32 ∨ ch = 9 then
        parseLoopT data dec fuel rest (pos + 1) { p with is_token_start := true }
      else if ch = 61 ∧ p.is_token_start = true ∧ rest.head? = some 63 then
        match dec (pos + 1) with
        | some (t, k) =>
          parseLoopT data dec fuel (rest.drop k) (pos + 1 + k)
            (pushDecoded (add_token p true) t)
        | none =>
          parseLoopT data dec fuel rest (pos + 1) (literalByte p (pos + 1))
      else if ch = 44 then
        parseLoopT data dec fuel rest (pos + 1)
          (add_tokens_to_list data (add_token p false))
      else if ch = 13 then
        parseLoopT data dec fuel rest (pos + 1) p
      else
        parseLoopT data dec fuel rest (pos + 1) (literalByte p (pos + 1))
    (step.1, p :: step.2.1, step.2.2)

/-- `MessageStream::parse_comma_separared` over input `data`, with the
external decoder given by `dec`. -/
def parse_comma_separared (data : List Byte) (dec : Decoder) : HeaderValue :=
  (parseLoopT data dec (data.length + 1) data 0 ListParser.init).1

/-- Ghost trace: the parser states at the top of every scan-loop
iteration of a full parse (plus the state at stream exhaustion). -/
def parse_trace (data : List Byte) (dec : Decoder) : List ListParser :=
  (parseLoopT data dec (data.length + 1) data 0 ListParser.init).2.1

/-- Ghost final entry list: `some l` when the parse returned at an
unfolded newline with flushed entry list `l`, `none` when it returned
because the byte stream was exhausted. -/
def parse_final (data : List Byte) (dec : Decoder) :
    Option (List (List Byte)) :=
  (parseLoopT data dec (data.length + 1) data 0 ListParser.init).2.2

/-- The result together with the ghost final list; convenient for
compositional reasoning that does not mention the trace. -/
def runOut (data : List Byte) (dec : Decoder) (fuel : Nat)
    (remaining : List Byte) (pos : Nat) (p : ListParser) :
    HeaderValue × Option (List (List Byte)) :=
  ((parseLoopT data dec fuel remaining pos p).1,
   (parseLoopT data dec fuel remaining pos p).2.2)

/-- A decoder that always fails: every encoded-word candidate falls back
to literal text. -/
def failDec : Decoder := fun _ => none

/-- Concrete decoder oracle replaying the behaviour of the real RFC 2047
decoder on the unit-test input
`"=?ISO-8859-1?Q?a?= =?ISO-8859-1?Q?b?=\n , listed\n"`: the encoded
word starting at offset 0 decodes to `"a"` consuming 17 further bytes,
the one starting at offset 19 decodes to `"b"`. -/
def decQab : Decoder := fun pos =>
  if pos = 1 then some ([97], 17)
  else if pos = 20 then some ([98], 17)
  else none

/-- Concrete decoder oracle for the input `"a\n =?X?=\n"`: the encoded
word starting at offset 3 decodes to `"T"` (byte 84), consuming the four
bytes `?X?=`. -/
def decT : Decoder := fun pos =>
  if pos = 4 then some ([84], 4) else none

/-- Concrete decoder oracle for the input `"=?U?q?a,b?=\n"`: the encoded
word starting at offset 0 decodes, RFC 2047 style, to the text `"a,b"`
(a comma is a legal Q-encoded-text byte), consuming the ten bytes
`?U?q?a,b?=`. -/
def decComma : Decoder := fun pos =>
  if pos = 1 then some ([97, 44, 98], 10) else none

/-- Concrete decoder oracle for the input `"=?A?=\n"`: the encoded word
starting at offset 0 decodes to the empty text (an encoded word with an
empty encoded-text part is legal under RFC 2047), consuming the four
bytes `?A?=`. -/
def decEmpty : Decoder := fun pos =>
  if pos = 1 then some ([], 4) else none

/-- Concrete decoder oracle used to instantiate the encoded-word
adjacency theorem: an encoded word at offset 0 decodes to `"A"`
consuming 4 further bytes, one at offset 6 decodes to `"B"`. -/
def dec5 : Decoder := fun pos =>
  if pos = 1 then some ([65], 4)
  else if pos = 7 then some ([66], 4)
  else none

/-- The whitespace-like bytes that never open or extend a word in the
scan loop: space, horizontal tab, and carriage return. -/
def wsb : Byte → Bool := fun b => b == 32 || b == 9 || b == 13

/-- `l` with its trailing `wsb` bytes removed. -/
def trimR (l : List Byte) : List Byte :=
  (l.reverse.dropWhile wsb).reverse

/-- `l` with leading and trailing `wsb` bytes removed: the bytes a
comma-free, newline-free, `=`-free segment contributes as an entry. -/
def trimWs (l : List Byte) : List Byte :=
  (trimR l).dropWhile wsb

/-- The comma-separated concatenation of a list of entries. -/
def joinComma : List (List Byte) → List Byte
  | [] => []
  | [e] => e
  | e :: e2 :: es => e ++ 44 :: joinComma (e2 :: es)

/-- The effect of the scan loop on the parser state while consuming a
run of bytes that contains no newline, no comma and no `=`: spaces and
tabs only set `is_token_start`, carriage returns are skipped, and every
other byte is literal-word material. -/
def wordScan : Nat → ListParser → List Byte → ListParser
  | _, p, [] => p
  | pos, p, b :: bs =>
    if b = 32 ∨ b = 9 then
      wordScan (pos + 1) { p with is_token_start := true } bs
    else if b = 13 then wordScan (pos + 1) p bs
    else wordScan (pos + 1) (literalByte p (pos + 1)) bs

/-- `true` when the fragment sequence never holds two adjacent injected
space separators. -/
def noConsecSp : List Frag → Bool
  | [] => true
  | [_] => true
  | a :: b :: t =>
    if a = Frag.space ∧ b = Frag.space then false else noConsecSp (b :: t)

/-- The first byte the scanner will see after the run `w`, where `nxt`
is the head of the bytes following `w`. -/
def fws_next (w : List Byte) (nxt : Option Byte) : Option Byte :=
  match w with
  | [] => nxt
  | b :: _ => some b

/-- Scan-loop invariant relating the word bounds to the cursor: when a
word is open, `token_start` is a real (1-based) offset, not past
`token_end`, and not past the offset after the byte just consumed, and
`token_end` never exceeds the input length. -/
def InvBounds (data : List Byte) (pos : Nat) (p : ListParser) : Prop :=
  (p.token_start ≠ 0 →
    1 ≤ p.token_start ∧ p.token_start ≤ p.token_end ∧
    p.token_start ≤ pos + 1) ∧
  p.token_end ≤ data.length

/-- Scan-loop invariant on the fragment sequence: no two adjacent
injected separator spaces, and the sequence never ends with an injected
space at the top of a loop iteration. -/
def InvTok (p : ListParser) : Prop :=
  noConsecSp p.tokens = true ∧ p.tokens.getLast? ≠ some Frag.space

/-- Goodness of a stored fragment with respect to a byte-sequence
property `P`: injected spaces are always good, a slice is good when its
bounds are valid and the spanned input bytes contain no newline (the
scan loop flushes at every newline, so no slice ever spans one), and a
decoded fragment is good when its text satisfies `P`. -/
def FragGood (data : List Byte) (P : List Byte → Prop) : Frag → Prop
  | Frag.space => True
  | Frag.slice s e =>
      1 ≤ s ∧ s ≤ e ∧ e ≤ data.length ∧
      ∀ j, s - 1 ≤ j → j < e → data[j]? ≠ some 10
  | Frag.decoded t => P t

/-- Scan-loop invariant on the open word span: it starts at a real
offset, ends at or before the cursor, and the input bytes from the
start of the word up to the cursor contain no newline. -/
def InvSpan (data : List Byte) (pos : Nat) (p : ListParser) : Prop :=
  p.token_start ≠ 0 →
    1 ≤ p.token_start ∧ p.token_start ≤ p.token_end ∧
    p.token_end ≤ pos ∧
    ∀ j, p.token_start - 1 ≤ j → j < pos → data[j]? ≠ some 10

/-- Combined scan-loop invariant for content properties: cursor
coherence, span validity, fragment goodness, and goodness of every
completed entry. -/
def InvContent (data : List Byte) (P : List Byte → Prop) (pos : Nat)
    (remaining : List Byte) (p : ListParser) : Prop :=
  data.drop pos = remaining ∧ InvSpan data pos p ∧
  (∀ f ∈ p.tokens, FragGood data P f) ∧
  (∀ e ∈ p.list, P e)

/-- The content conclusion over a scan-loop result: every entry of
every traced state satisfies `P`, and so does every entry of the final
flushed list. -/
def ConclP (P : List Byte → Prop)
    (r : HeaderValue × List ListParser × Option (List (List Byte))) :
    Prop :=
  (∀ q ∈ r.2.1, ∀ e ∈ q.list, P e) ∧
  (∀ l, r.2.2 = some l → ∀ e ∈ l, P e)

/-- `FoldWs nxt w`: the byte run `w` is pure folding whitespace when
followed by a byte stream starting with `nxt` — spaces, tabs, carriage
returns, and newlines whose following byte is a space or tab (fold
continuations). -/
inductive FoldWs (nxt : Option Byte) : List Byte → Prop
  | nil : FoldWs nxt []
  | sp {w : List Byte} : FoldWs nxt w → FoldWs nxt (32 :: w)
  | tab {w : List Byte} : FoldWs nxt w → FoldWs nxt (9 :: w)
  | cr {w : List Byte} : FoldWs nxt w → FoldWs nxt (13 :: w)
  | nl {w : List Byte} : FoldWs nxt w →
      fws_next w nxt = some 32 ∨ fws_next w nxt = some 9 →
      FoldWs nxt (10 :: w)

-- Sanity checks replaying the unit tests of `list.rs` (plain-text
-- cases; encoded-word cases appear further below with concrete
-- decoder oracles).

/-- Unit test from `list.rs`: `" one item  \n"` parses to
`Text("one item")`. -/
example :
    parse_comma_separared [32, 111, 110, 101, 32, 105, 116, 101, 109, 32, 32, 10]
      failDec =
    HeaderValue.Text [111, 110, 101, 32, 105, 116, 101, 109] := by decide

/-- Unit test from `list.rs`: `"simple, list\n"` parses to
`TextList(["simple", "list"])`. -/
example :
    parse_comma_separared
      [115, 105, 109, 112, 108, 101, 44, 32, 108, 105, 115, 116, 10] failDec =
    HeaderValue.TextList [[115, 105, 109, 112, 108, 101], [108, 105, 115, 116]] := by
  decide

/-- Unit test from `list.rs`: `"multi \r\n list, \r\n with, cr lf  \r\n"`
parses to `TextList(["multi list", "with", "cr lf"])`. -/
example :
    parse_comma_separared
      [109, 117, 108, 116, 105, 32, 13, 10, 32, 108, 105, 115, 116, 44, 32, 13,
       10, 32, 119, 105, 116, 104, 44, 32, 99, 114, 32, 108, 102, 32, 32, 13, 10]
      failDec =
    HeaderValue.TextList
      [[109, 117, 108, 116, 105, 32, 108, 105, 115, 116],
       [119, 105, 116, 104],
       [99, 114, 32, 108, 102]] := by decide

/-- Unit test from `list.rs`:
`"=?ISO-8859-1?Q?a?= =?ISO-8859-1?Q?b?=\n , listed\n"` parses to
`TextList(["ab", "listed"])` — the space between the two adjacent
encoded words is elided. -/
example :
    parse_comma_separared
      [61, 63, 73, 83, 79, 45, 56, 56, 53, 57, 45, 49, 63, 81, 63, 97, 63, 61,
       32,
       61, 63, 73, 83, 79, 45, 56, 56, 53, 57, 45, 49, 63, 81, 63, 98, 63, 61,
       10, 32, 44, 32, 108, 105, 115, 116, 101, 100, 10] decQab =
    HeaderValue.TextList [[97, 98], [108, 105, 115, 116, 101, 100]] := by decide

-- Step lemmas: one unfolding of the scan loop per byte class.

/-- Exhausted stream: the loop returns `HeaderValue::Empty` with no
final flush, whatever state has accumulated. -/
theorem parseLoopT_nil (data : List Byte) (dec : Decoder) (fuel pos : Nat)
    (p : ListParser) :
    parseLoopT data dec fuel [] pos p = (HeaderValue.Empty, [p], none) := by
  cases fuel <;> rfl

/-- A newline whose following byte is a space or tab: flush the current
word and continue scanning (fold continuation). -/
theorem parseLoopT_nl_fold (data : List Byte) (dec : Decoder)
    (fuel pos : Nat) (p : ListParser) (rest : List Byte)
    (h : rest.head? = some 32 ∨ rest.head? = some 9) :
    parseLoopT data dec (fuel + 1) (10 :: rest) pos p =
      ((parseLoopT data dec fuel rest (pos + 1) (add_token p false)).1,
       p :: (parseLoopT data dec fuel rest (pos + 1) (add_token p false)).2.1,
       (parseLoopT data dec fuel rest (pos + 1) (add_token p false)).2.2) := by
  rcases h with h | h <;> simp [parseLoopT, h]

/-- A newline not followed by a space or tab: flush the word, flush the
tokens, shape and return. -/
theorem parseLoopT_nl_ret (data : List Byte) (dec : Decoder)
    (fuel pos : Nat) (p : ListParser) (rest : List Byte)
    (h : ¬(rest.head? = some 32 ∨ rest.head? = some 9)) :
    parseLoopT data dec (fuel + 1) (10 :: rest) pos p =
      (shapeResult (add_tokens_to_list data (add_token p false)).list,
       [p],
       some (add_tokens_to_list data (add_token p false)).list) := by
  simp only [parseLoopT]
  rw [if_pos trivial, if_neg h]

/-- A space or tab byte: only `is_token_start` is set. -/
theorem parseLoopT_ws (data : List Byte) (dec : Decoder)
    (fuel pos : Nat) (p : ListParser) (rest : List Byte) (ch : Byte)
    (h : ch = 32 ∨ ch = 9) :
    parseLoopT data dec (fuel + 1) (ch :: rest) pos p =
      ((parseLoopT data dec fuel rest (pos + 1)
          { p with is_token_start := true }).1,
       p :: (parseLoopT data dec fuel rest (pos + 1)
          { p with is_token_start := true }).2.1,
       (parseLoopT data dec fuel rest (pos + 1)
          { p with is_token_start := true }).2.2) := by
  rcases h with h | h <;> subst h <;> simp [parseLoopT]

/-- A `=` at a word-start position followed by `?`, with a succeeding
decode: flush the pending plain word with a trailing space, push the
decoded text, jump the cursor past the consumed encoded word. -/
theorem parseLoopT_ew_some (data : List Byte) (dec : Decoder)
    (fuel pos : Nat) (p : ListParser) (rest t : List Byte) (k : Nat)
    (hts : p.is_token_start = true) (hpk : rest.head? = some 63)
    (hdec : dec (pos + 1) = some (t, k)) :
    parseLoopT data dec (fuel + 1) (61 :: rest) pos p =
      ((parseLoopT data dec fuel (rest.drop k) (pos + 1 + k)
          (pushDecoded (add_token p true) t)).1,
       p :: (parseLoopT data dec fuel (rest.drop k) (pos + 1 + k)
          (pushDecoded (add_token p true) t)).2.1,
       (parseLoopT data dec fuel (rest.drop k) (pos + 1 + k)
          (pushDecoded (add_token p true) t)).2.2) := by
  simp [parseLoopT, hts, hpk, hdec]

/-- A `=` at a word-start position followed by `?`, with a failing
decode: the cursor is restored to just after the `=` (the pre-attempt
checkpoint) and the byte falls through to literal handling. -/
theorem parseLoopT_ew_none (data : List Byte) (dec : Decoder)
    (fuel pos : Nat) (p : ListParser) (rest : List Byte)
    (hts : p.is_token_start = true) (hpk : rest.head? = some 63)
    (hdec : dec (pos + 1) = none) :
    parseLoopT data dec (fuel + 1) (61 :: rest) pos p =
      ((parseLoopT data dec fuel rest (pos + 1) (literalByte p (pos + 1))).1,
       p :: (parseLoopT data dec fuel rest (pos + 1)
          (literalByte p (pos + 1))).2.1,
       (parseLoopT data dec fuel rest (pos + 1)
          (literalByte p (pos + 1))).2.2) := by
  simp [parseLoopT, hts, hpk, hdec]

/-- A comma: flush the current word, then flush the tokens into a
completed entry. -/
theorem parseLoopT_comma (data : List Byte) (dec : Decoder)
    (fuel pos : Nat) (p : ListParser) (rest : List Byte) :
    parseLoopT data dec (fuel + 1) (44 :: rest) pos p =
      ((parseLoopT data dec fuel rest (pos + 1)
          (add_tokens_to_list data (add_token p false))).1,
       p :: (parseLoopT data dec fuel rest (pos + 1)
          (add_tokens_to_list data (add_token p false))).2.1,
       (parseLoopT data dec fuel rest (pos + 1)
          (add_tokens_to_list data (add_token p false))).2.2) := by
  simp [parseLoopT]

/-- A carriage return: consumed with no state change at all. -/
theorem parseLoopT_cr (data : List Byte) (dec : Decoder)
    (fuel pos : Nat) (p : ListParser) (rest : List Byte) :
    parseLoopT data dec (fuel + 1) (13 :: rest) pos p =
      ((parseLoopT data dec fuel rest (pos + 1) p).1,
       p :: (parseLoopT data dec fuel rest (pos + 1) p).2.1,
       (parseLoopT data dec fuel rest (pos + 1) p).2.2) := by
  simp [parseLoopT]

/-- Any other byte (including a `=` that is not at a word start, not
followed by `?`, or whose decode failed): literal word material. -/
theorem parseLoopT_other (data : List Byte) (dec : Decoder)
    (fuel pos : Nat) (p : ListParser) (rest : List Byte) (ch : Byte)
    (h10 : ch ≠ 10) (hws : ¬(ch = 32 ∨ ch = 9))
    (h61 : ¬(ch = 61 ∧ p.is_token_start = true ∧ rest.head? = some 63))
    (h44 : ch ≠ 44) (h13 : ch ≠ 13) :
    parseLoopT data dec (fuel + 1) (ch :: rest) pos p =
      ((parseLoopT data dec fuel rest (pos + 1) (literalByte p (pos + 1))).1,
       p :: (parseLoopT data dec fuel rest (pos + 1)
          (literalByte p (pos + 1))).2.1,
       (parseLoopT data dec fuel rest (pos + 1)
          (literalByte p (pos + 1))).2.2) := by
  simp only [parseLoopT]
  rw [if_neg h10, if_neg hws, if_neg h61, if_neg h44, if_neg h13]

/-- The returned value is `Empty` when the stream was exhausted, and the
shaping of the final flushed entry list when the parse returned at an
unfolded newline. -/
theorem parse_shape (data : List Byte) (dec : Decoder) :
    ∀ (fuel : Nat) (remaining : List Byte) (pos : Nat) (p : ListParser),
      ((parseLoopT data dec fuel remaining pos p).2.2 = none →
        (parseLoopT data dec fuel remaining pos p).1 = HeaderValue.Empty) ∧
      ∀ l, (parseLoopT data dec fuel remaining pos p).2.2 = some l →
        (parseLoopT data dec fuel remaining pos p).1 = shapeResult l := by
  intro fuel
  induction fuel with
  | zero =>
    intro remaining pos p
    cases remaining <;> exact ⟨fun _ => rfl, fun l h => nomatch h⟩
  | succ fuel ih =>
    intro remaining pos p
    cases remaining with
    | nil => exact ⟨fun _ => rfl, fun l h => nomatch h⟩
    | cons ch rest =>
      simp only [parseLoopT]
      split
      · split
        · exact ih _ _ _
        · exact ⟨(fun h => nomatch h), fun l h => by rw [Option.some.inj h]⟩
      · split
        · exact ih _ _ _
        · split
          · split
            · exact ih _ _ _
            · exact ih _ _ _
          · split
            · exact ih _ _ _
            · split
              · exact ih _ _ _
              · exact ih _ _ _

/-- When the remaining bytes hold no newline byte the scan loop always
exhausts the stream and returns `Empty`, flushing nothing. -/
theorem loop_no_newline (data : List Byte) (dec : Decoder) :
    ∀ (fuel : Nat) (remaining : List Byte) (pos : Nat) (p : ListParser),
      (∀ b ∈ remaining, b ≠ 10) →
      (parseLoopT data dec fuel remaining pos p).1 = HeaderValue.Empty ∧
      (parseLoopT data dec fuel remaining pos p).2.2 = none := by
  intro fuel
  induction fuel with
  | zero =>
    intro remaining pos p _
    cases remaining <;> exact ⟨rfl, rfl⟩
  | succ fuel ih =>
    intro remaining pos p hmem
    cases remaining with
    | nil => exact ⟨rfl, rfl⟩
    | cons ch rest =>
      have hch : ch ≠ 10 := hmem ch (List.mem_cons_self ch rest)
      have hrest : ∀ b ∈ rest, b ≠ 10 :=
        fun b hb => hmem b (List.mem_cons_of_mem ch hb)
      simp only [parseLoopT]
      split
      · rename_i hcond
        exact absurd hcond hch
      · split
        · exact ih _ _ _ hrest
        · split
          · split
            · exact ih _ _ _ fun b hb => hrest b (List.drop_subset _ _ hb)
            · exact ih _ _ _ hrest
          · split
            · exact ih _ _ _ hrest
            · split
              · exact ih _ _ _ hrest
              · exact ih _ _ _ hrest

-- Generic facts about suffixes of the input and the result shaping.

/-- Dropping `k` further bytes from a suffix of the input. -/
theorem drop_add_of_drop (data rest : List Byte) (pos k : Nat)
    (h : data.drop pos = rest) : data.drop (pos + k) = rest.drop k := by
  rw [← h, List.drop_drop, Nat.add_comm]

/-- A non-empty suffix means the cursor is strictly inside the input. -/
theorem pos_lt_of_drop_cons (data rest : List Byte) (pos : Nat) (ch : Byte)
    (h : data.drop pos = ch :: rest) : pos < data.length := by
  have hl : data.length - pos = (ch :: rest).length := by
    rw [← List.length_drop, h]
  simp only [List.length_cons] at hl
  omega

/-- Consuming the head byte of a suffix of the input. -/
theorem drop_succ_of_drop_cons (data rest : List Byte) (pos : Nat) (ch : Byte)
    (h : data.drop pos = ch :: rest) : data.drop (pos + 1) = rest := by
  rw [drop_add_of_drop data (ch :: rest) pos 1 h, List.drop_one]
  rfl

/-- Shaping a list of at least two entries yields `TextList`. -/
theorem shapeResult_of_two_le (l : List (List Byte)) (h : 2 ≤ l.length) :
    shapeResult l = HeaderValue.TextList l := by
  match l with
  | [] => simp at h
  | [e] => simp at h
  | a :: b :: t => rfl

-- Claim C1.

/-- Claim C1 (amended): when the byte stream is exhausted the parse
returns `HeaderValue::Empty` unconditionally — in particular for every
input containing no newline byte — discarding any pending word, pending
tokens and completed entries instead of flushing them. -/
theorem c1_eof_returns_empty :
    (∀ (data : List Byte) (dec : Decoder), (∀ b ∈ data, b ≠ 10) →
      parse_comma_separared data dec = HeaderValue.Empty) ∧
    (∀ (data : List Byte) (dec : Decoder), parse_final data dec = none →
      parse_comma_separared data dec = HeaderValue.Empty) := by
  constructor
  · intro data dec h
    exact (loop_no_newline data dec (data.length + 1) data 0 ListParser.init h).1
  · intro data dec h
    exact (parse_shape data dec (data.length + 1) data 0 ListParser.init).1 h

/-- Claim C1 (counterexample to the claim as stated): the input `"a"`,
whose byte stream is exhausted without a terminating newline, parses to
`Empty` — the pending word `a` is discarded — whereas the
newline-terminated `"a\n"` parses to `Text("a")`, which is what the
claim asserts for `"a"` as well. -/
theorem c1_eof_counterexample :
    parse_comma_separared [97] failDec = HeaderValue.Empty ∧
    parse_comma_separared [97, 10] failDec = HeaderValue.Text [97] := by
  decide

/-- Witness instantiating `c1_eof_returns_empty` on the concrete
newline-free input `"ab"`. -/
theorem c1_eof_returns_empty_witness :
    parse_comma_separared [97, 98] failDec = HeaderValue.Empty :=
  c1_eof_returns_empty.1 [97, 98] failDec (by decide)

-- Claim C2.

/-- Claim C2 (amended): when the parse returns at an unfolded newline,
the result is determined solely by the flushed entry list: zero entries
give `Empty`, one entry gives `Text` of that sole entry, two or more
give `TextList` of the entries in order.  When the byte stream is
exhausted without an unfolded newline, the result is `Empty` regardless
of how many completed entries the list holds. -/
theorem c2_result_shape (data : List Byte) (dec : Decoder) :
    (∀ l, parse_final data dec = some l →
      parse_comma_separared data dec = shapeResult l ∧
      (l = [] → parse_comma_separared data dec = HeaderValue.Empty) ∧
      (∀ e, l = [e] → parse_comma_separared data dec = HeaderValue.Text e) ∧
      (2 ≤ l.length →
        parse_comma_separared data dec = HeaderValue.TextList l)) ∧
    (parse_final data dec = none →
      parse_comma_separared data dec = HeaderValue.Empty) := by
  have hs := parse_shape data dec (data.length + 1) data 0 ListParser.init
  refine ⟨fun l hl => ?_, fun h => hs.1 h⟩
  have h1 : parse_comma_separared data dec = shapeResult l := hs.2 l hl
  refine ⟨h1, fun h0 => ?_, fun e he => ?_, fun h2 => ?_⟩
  · rw [h1, h0]; rfl
  · rw [h1, he]; rfl
  · rw [h1, shapeResult_of_two_le l h2]

/-- Claim C2 (counterexample to the claim as stated): on the input
`"a,b,"` the parse ends with two completed entries `a`, `b` in the list
(visible in the last traced state), yet returns `Empty`, not the
`TextList` the claim derives from the entry count; the
newline-terminated `"a,b,\n"` returns that `TextList`. -/
theorem c2_result_shape_counterexample :
    parse_comma_separared [97, 44, 98, 44] failDec = HeaderValue.Empty ∧
    (parse_trace [97, 44, 98, 44] failDec).getLast? =
      some { token_start := 0, token_end := 3, is_token_start := true,
             tokens := [], list := [[97], [98]] } ∧
    parse_comma_separared [97, 44, 98, 44, 10] failDec =
      HeaderValue.TextList [[97], [98]] := by
  decide

/-- Witness instantiating `c2_result_shape` on the input `"a\n"`, whose
final flush produces the single entry `a`. -/
theorem c2_result_shape_witness :
    parse_comma_separared [97, 10] failDec = shapeResult [[97]] :=
  ((c2_result_shape [97, 10] failDec).1 [[97]] (by decide)).1

-- Bounds invariant (claim C9).

/-- The bounds conclusion for one traced state, as read off from
`InvBounds`. -/
theorem invB_concl (data : List Byte) (pos : Nat) (p : ListParser)
    (h : InvBounds data pos p) :
    (p.token_start ≠ 0 →
      1 ≤ p.token_start ∧ p.token_start ≤ p.token_end) ∧
    p.token_end ≤ data.length :=
  ⟨fun hne => ⟨(h.1 hne).1, (h.1 hne).2.1⟩, h.2⟩

/-- `InvBounds` is monotone in the cursor position. -/
theorem invB_mono (data : List Byte) (pos pos2 : Nat) (p : ListParser)
    (hle : pos ≤ pos2) (h : InvBounds data pos p) :
    InvBounds data pos2 p :=
  ⟨fun hne => ⟨(h.1 hne).1, (h.1 hne).2.1, by have := (h.1 hne).2.2; omega⟩,
   h.2⟩

/-- `add_token` preserves `InvBounds` (it closes the word, leaving
`token_end` unchanged). -/
theorem invB_add_token (data : List Byte) (pos : Nat) (p : ListParser)
    (b : Bool) (h : InvBounds data pos p) :
    InvBounds data pos (add_token p b) := by
  unfold add_token
  split
  · exact ⟨fun hne => absurd rfl hne, h.2⟩
  · exact h

/-- `add_tokens_to_list` preserves `InvBounds` (it only moves tokens
into the entry list). -/
theorem invB_attl (data data2 : List Byte) (pos : Nat) (p : ListParser)
    (h : InvBounds data pos p) :
    InvBounds data pos (add_tokens_to_list data2 p) := by
  unfold add_tokens_to_list
  split
  · exact h
  · exact h

/-- `literalByte` preserves `InvBounds` when the consumed byte lies
inside the input. -/
theorem invB_literal (data : List Byte) (pos : Nat) (p : ListParser)
    (hlt : pos < data.length) (h : InvBounds data pos p) :
    InvBounds data (pos + 1) (literalByte p (pos + 1)) := by
  obtain ⟨h1, h2⟩ := h
  unfold literalByte InvBounds
  dsimp only
  constructor
  · intro _
    split
    · omega
    · rename_i hne
      have := h1 hne
      omega
  · omega

/-- Throughout the scan loop, every traced state satisfies the
slice-bounds facts. -/
theorem loop_bounds (data : List Byte) (dec : Decoder) :
    ∀ (fuel : Nat) (remaining : List Byte) (pos : Nat) (p : ListParser),
      data.drop pos = remaining → InvBounds data pos p →
      ∀ q ∈ (parseLoopT data dec fuel remaining pos p).2.1,
        (q.token_start ≠ 0 →
          1 ≤ q.token_start ∧ q.token_start ≤ q.token_end) ∧
        q.token_end ≤ data.length := by
  intro fuel
  induction fuel with
  | zero =>
    intro remaining pos p _ hinv q hq
    cases remaining <;>
      (simp only [parseLoopT, List.mem_singleton] at hq; rw [hq];
       exact invB_concl data pos p hinv)
  | succ fuel ih =>
    intro remaining pos p hcoh hinv q hq
    cases remaining with
    | nil =>
      simp only [parseLoopT, List.mem_singleton] at hq
      rw [hq]
      exact invB_concl data pos p hinv
    | cons ch rest =>
      have hlt : pos < data.length := pos_lt_of_drop_cons data rest pos ch hcoh
      have hcoh1 : data.drop (pos + 1) = rest :=
        drop_succ_of_drop_cons data rest pos ch hcoh
      simp only [parseLoopT] at hq
      rw [List.mem_cons] at hq
      rcases hq with rfl | hq
      · exact invB_concl data pos q hinv
      · revert hq
        split
        · split
          · exact fun hq => ih rest (pos + 1) _ hcoh1
              (invB_add_token data (pos + 1) p false
                (invB_mono data pos (pos + 1) p (by omega) hinv)) q hq
          · intro hq
            simp at hq
        · split
          · exact fun hq =>
              ih rest (pos + 1) { p with is_token_start := true } hcoh1
                (invB_mono data pos (pos + 1) { p with is_token_start := true }
                  (by omega) hinv) q hq
          · split
            · split
              · rename_i t k heq
                exact fun hq =>
                  ih (rest.drop k) (pos + 1 + k)
                    (pushDecoded (add_token p true) t)
                    (drop_add_of_drop data rest (pos + 1) k hcoh1)
                    (invB_add_token data (pos + 1 + k) p true
                      (invB_mono data pos (pos + 1 + k) p (by omega) hinv)) q hq
              · exact fun hq => ih rest (pos + 1) _ hcoh1
                  (invB_literal data pos p hlt hinv) q hq
            · split
              · exact fun hq =>
                  ih rest (pos + 1)
                    (add_tokens_to_list data (add_token p false)) hcoh1
                    (invB_attl data data (pos + 1) (add_token p false)
                      (invB_add_token data (pos + 1) p false
                        (invB_mono data pos (pos + 1) p (by omega) hinv))) q hq
              · split
                · exact fun hq => ih rest (pos + 1) p hcoh1
                    (invB_mono data pos (pos + 1) p (by omega) hinv) q hq
                · exact fun hq => ih rest (pos + 1) _ hcoh1
                    (invB_literal data pos p hlt hinv) q hq

/-- Claim C9 (confirmed): throughout every parse, whenever
`token_start != 0` the invariant `token_end >= token_start - 1` holds
(indeed `token_end >= token_start`), `token_end` never exceeds the
input length, and the byte-slice `data[token_start - 1 .. token_end]`
taken by `add_token` neither underflows nor reads out of bounds: it
materialises exactly its `token_end - (token_start - 1)` bytes. -/
theorem c9_slice_bounds (data : List Byte) (dec : Decoder) (q : ListParser)
    (hq : q ∈ parse_trace data dec) :
    q.token_end ≤ data.length ∧
    (q.token_start ≠ 0 →
      q.token_start - 1 ≤ q.token_end ∧
      (extract data (q.token_start - 1) q.token_end).length =
        q.token_end - (q.token_start - 1)) := by
  have h := loop_bounds data dec (data.length + 1) data 0 ListParser.init
    (by rw [List.drop_zero])
    ⟨fun hne => absurd rfl hne, by exact Nat.zero_le _⟩ q hq
  refine ⟨h.2, fun hne => ?_⟩
  have h1 := h.1 hne
  refine ⟨by omega, ?_⟩
  unfold extract
  rw [List.length_drop, List.length_take]
  omega

/-- Witness instantiating `c9_slice_bounds` at the state traced just
before the final newline of the input `"a\n"`. -/
theorem c9_slice_bounds_witness :
    ({ token_start := 1, token_end := 1, is_token_start := false,
       tokens := [], list := [] } : ListParser) ∈
      parse_trace [97, 10] failDec ∧
    (({ token_start := 1, token_end := 1, is_token_start := false,
        tokens := [], list := [] } : ListParser).token_end ≤
      ([97, 10] : List Byte).length ∧
     (({ token_start := 1, token_end := 1, is_token_start := false,
         tokens := [], list := [] } : ListParser).token_start ≠ 0 →
       ({ token_start := 1, token_end := 1, is_token_start := false,
          tokens := [], list := [] } : ListParser).token_start - 1 ≤
         ({ token_start := 1, token_end := 1, is_token_start := false,
            tokens := [], list := [] } : ListParser).token_end ∧
       (extract [97, 10]
          (({ token_start := 1, token_end := 1, is_token_start := false,
              tokens := [], list := [] } : ListParser).token_start - 1)
          ({ token_start := 1, token_end := 1, is_token_start := false,
             tokens := [], list := [] } : ListParser).token_end).length =
         ({ token_start := 1, token_end := 1, is_token_start := false,
            tokens := [], list := [] } : ListParser).token_end -
           (({ token_start := 1, token_end := 1, is_token_start := false,
               tokens := [], list := [] } : ListParser).token_start - 1))) :=
  ⟨by decide, c9_slice_bounds [97, 10] failDec _ (by decide)⟩

-- Characterisations of `add_token`.

/-- `add_token` is a no-op when no word is open. -/
theorem add_token_ts0 (p : ListParser) (b : Bool)
    (h : p.token_start = 0) : add_token p b = p := by
  unfold add_token
  rw [if_neg (by omega)]

/-- The fragments after flushing an open word without a trailing
space. -/
theorem add_token_tokens_false (p : ListParser)
    (hts : p.token_start > 0) :
    (add_token p false).tokens =
      (if p.tokens = [] then p.tokens else p.tokens ++ [Frag.space]) ++
        [Frag.slice p.token_start p.token_end] := by
  unfold add_token
  rw [if_pos hts]
  simp

/-- The fragments after flushing an open word with a trailing space. -/
theorem add_token_tokens_true (p : ListParser)
    (hts : p.token_start > 0) :
    (add_token p true).tokens =
      ((if p.tokens = [] then p.tokens else p.tokens ++ [Frag.space]) ++
        [Frag.slice p.token_start p.token_end]) ++ [Frag.space] := by
  unfold add_token
  rw [if_pos hts]
  simp

/-- Flushing an open word closes it and touches neither `token_end` nor
the entry list. -/
theorem add_token_fields (p : ListParser) (b : Bool)
    (hts : p.token_start > 0) :
    (add_token p b).token_start = 0 ∧
    (add_token p b).token_end = p.token_end ∧
    (add_token p b).is_token_start = true ∧
    (add_token p b).list = p.list := by
  unfold add_token
  rw [if_pos hts]
  exact ⟨rfl, rfl, rfl, rfl⟩

-- Token-sequence invariant (claim C10).

/-- Appending a non-space fragment preserves space-adjacency freedom. -/
theorem noConsecSp_append_nonsp (l : List Frag) (x : Frag)
    (hx : x ≠ Frag.space) (h : noConsecSp l = true) :
    noConsecSp (l ++ [x]) = true := by
  induction l with
  | nil => rfl
  | cons a l ih =>
    cases l with
    | nil =>
      show noConsecSp (a :: x :: []) = true
      unfold noConsecSp
      rw [if_neg fun hc => hx hc.2]
      rfl
    | cons b t =>
      unfold noConsecSp at h ⊢
      by_cases hc : a = Frag.space ∧ b = Frag.space
      · rw [if_pos hc] at h
        exact absurd h (by simp)
      · rw [if_neg hc] at h
        show noConsecSp (a :: b :: (t ++ [x])) = true
        unfold noConsecSp
        rw [if_neg hc]
        exact ih h

/-- Appending an injected space to a sequence not ending in one
preserves space-adjacency freedom. -/
theorem noConsecSp_append_sp (l : List Frag) (h : noConsecSp l = true)
    (hl : l.getLast? ≠ some Frag.space) :
    noConsecSp (l ++ [Frag.space]) = true := by
  induction l with
  | nil => rfl
  | cons a l ih =>
    cases l with
    | nil =>
      have ha : a ≠ Frag.space := by
        intro hasp
        exact hl (by rw [hasp]; rfl)
      show noConsecSp (a :: Frag.space :: []) = true
      unfold noConsecSp
      rw [if_neg fun hc => ha hc.1]
      rfl
    | cons b t =>
      unfold noConsecSp at h ⊢
      by_cases hc : a = Frag.space ∧ b = Frag.space
      · rw [if_pos hc] at h
        exact absurd h (by simp)
      · rw [if_neg hc] at h
        show noConsecSp (a :: b :: (t ++ [Frag.space])) = true
        unfold noConsecSp
        rw [if_neg hc]
        exact ih h (by simp only [List.getLast?_cons_cons] at hl; exact hl)

/-- The fragment sequence built by flushing a word without a trailing
space is space-adjacency free and does not end in a space. -/
theorem invT_add_token_false (p : ListParser) (h : InvTok p) :
    InvTok (add_token p false) := by
  by_cases hts : p.token_start > 0
  · have htok := add_token_tokens_false p hts
    by_cases ht : p.tokens = []
    · rw [if_pos ht, ht, List.nil_append] at htok
      constructor
      · rw [htok]
        rfl
      · rw [htok]
        simp
    · rw [if_neg ht] at htok
      constructor
      · rw [htok]
        exact noConsecSp_append_nonsp _ _ (by simp)
          (noConsecSp_append_sp p.tokens h.1 h.2)
      · rw [htok, List.getLast?_concat]
        simp
  · rw [add_token_ts0 p false (by omega)]
    exact h

/-- Flushing a word with a trailing space and then pushing the decoded
text (the successful encoded-word branch) preserves `InvTok`. -/
theorem invT_decode (p : ListParser) (t : List Byte) (h : InvTok p) :
    InvTok (pushDecoded (add_token p true) t) := by
  have hmid : noConsecSp (add_token p true).tokens = true := by
    by_cases hts : p.token_start > 0
    · have htok := add_token_tokens_true p hts
      by_cases ht : p.tokens = []
      · rw [if_pos ht, ht, List.nil_append] at htok
        rw [htok]
        rfl
      · rw [if_neg ht] at htok
        rw [htok]
        exact noConsecSp_append_sp _
          (noConsecSp_append_nonsp _ _ (by simp)
            (noConsecSp_append_sp p.tokens h.1 h.2))
          (by rw [List.getLast?_concat]; simp)
    · rw [add_token_ts0 p true (by omega)]
      exact h.1
  unfold pushDecoded
  constructor
  · exact noConsecSp_append_nonsp _ _ (by simp) hmid
  · dsimp only
    rw [List.getLast?_concat]
    simp

/-- `add_tokens_to_list` preserves `InvTok` (it clears the tokens). -/
theorem invT_attl (data2 : List Byte) (p : ListParser) (h : InvTok p) :
    InvTok (add_tokens_to_list data2 p) := by
  unfold add_tokens_to_list
  split
  · exact h
  · exact ⟨rfl, by simp⟩

/-- Throughout the scan loop, every traced state satisfies `InvTok`. -/
theorem loop_tokens (data : List Byte) (dec : Decoder) :
    ∀ (fuel : Nat) (remaining : List Byte) (pos : Nat) (p : ListParser),
      InvTok p →
      ∀ q ∈ (parseLoopT data dec fuel remaining pos p).2.1, InvTok q := by
  intro fuel
  induction fuel with
  | zero =>
    intro remaining pos p hinv q hq
    cases remaining <;>
      (simp only [parseLoopT, List.mem_singleton] at hq; rw [hq]; exact hinv)
  | succ fuel ih =>
    intro remaining pos p hinv q hq
    cases remaining with
    | nil =>
      simp only [parseLoopT, List.mem_singleton] at hq
      rw [hq]
      exact hinv
    | cons ch rest =>
      simp only [parseLoopT] at hq
      rw [List.mem_cons] at hq
      rcases hq with rfl | hq
      · exact hinv
      · revert hq
        split
        · split
          · exact fun hq => ih rest (pos + 1) _
              (invT_add_token_false p hinv) q hq
          · intro hq
            simp at hq
        · split
          · exact fun hq =>
              ih rest (pos + 1) { p with is_token_start := true }
                ⟨hinv.1, hinv.2⟩ q hq
          · split
            · split
              · rename_i t k heq
                exact fun hq =>
                  ih (rest.drop k) (pos + 1 + k)
                    (pushDecoded (add_token p true) t)
                    (invT_decode p t hinv) q hq
              · exact fun hq => ih rest (pos + 1) (literalByte p (pos + 1))
                  ⟨hinv.1, hinv.2⟩ q hq
            · split
              · exact fun hq =>
                  ih rest (pos + 1)
                    (add_tokens_to_list data (add_token p false))
                    (invT_attl data (add_token p false)
                      (invT_add_token_false p hinv)) q hq
              · split
                · exact fun hq => ih rest (pos + 1) p hinv q hq
                · exact fun hq => ih rest (pos + 1) (literalByte p (pos + 1))
                    ⟨hinv.1, hinv.2⟩ q hq

/-- Claim C10 (confirmed): throughout every parse, the `tokens`
sequence never holds two consecutive injected single-space separator
fragments (and at the top of every loop iteration it never ends in
one), so no entry is ever assembled from two adjacent injected
separator spaces. -/
theorem c10_no_consecutive_spaces (data : List Byte) (dec : Decoder)
    (q : ListParser) (hq : q ∈ parse_trace data dec) :
    noConsecSp q.tokens = true := by
  exact (loop_tokens data dec (data.length + 1) data 0 ListParser.init
    ⟨rfl, by decide⟩ q hq).1

/-- Witness instantiating `c10_no_consecutive_spaces` at the state
traced just after the fold of the input `"a\n b\n"`, whose tokens hold
the flushed word `a`. -/
theorem c10_no_consecutive_spaces_witness :
    ({ token_start := 0, token_end := 1, is_token_start := true,
       tokens := [Frag.slice 1 1], list := [] } : ListParser) ∈
      parse_trace [97, 10, 32, 98, 10] failDec ∧
    noConsecSp
      ({ token_start := 0, token_end := 1, is_token_start := true,
         tokens := [Frag.slice 1 1], list := [] } : ListParser).tokens =
      true :=
  ⟨by decide,
   c10_no_consecutive_spaces [97, 10, 32, 98, 10] failDec _ (by decide)⟩

-- Content invariant machinery (claims C4 and C7).

/-- The byte under the cursor, read off from the remaining suffix. -/
theorem getElem?_of_drop_cons (data rest : List Byte) (pos : Nat)
    (ch : Byte) (h : data.drop pos = ch :: rest) :
    data[pos]? = some ch := by
  have h0 : (data.drop pos)[0]? = some ch := by rw [h]; simp
  rw [List.getElem?_drop] at h0
  simpa using h0

/-- `add_token` always leaves the word closed. -/
theorem add_token_start_zero (p : ListParser) (b : Bool) :
    (add_token p b).token_start = 0 := by
  by_cases hts : p.token_start > 0
  · exact (add_token_fields p b hts).1
  · rw [add_token_ts0 p b (by omega)]
    omega

/-- `add_token` never touches the entry list. -/
theorem add_token_list (p : ListParser) (b : Bool) :
    (add_token p b).list = p.list := by
  by_cases hts : p.token_start > 0
  · exact (add_token_fields p b hts).2.2.2
  · rw [add_token_ts0 p b (by omega)]

/-- `add_tokens_to_list` never touches the word bounds. -/
theorem attl_token_start (data2 : List Byte) (p : ListParser) :
    (add_tokens_to_list data2 p).token_start = p.token_start := by
  unfold add_tokens_to_list
  split
  · rfl
  · rfl

/-- A state with a closed word trivially satisfies the span
invariant. -/
theorem invSpan_closed (data : List Byte) (pos : Nat) (p : ListParser)
    (h : p.token_start = 0) : InvSpan data pos p :=
  fun hne => absurd h hne

/-- Skipping a non-newline byte preserves the span invariant without
touching the word bounds. -/
theorem invSpan_skip (data : List Byte) (pos : Nat) (p : ListParser)
    (ch : Byte) (hch : data[pos]? = some ch) (h10 : ch ≠ 10)
    (hspan : InvSpan data pos p) : InvSpan data (pos + 1) p := by
  intro hne
  obtain ⟨h1, h2, h3, h4⟩ := hspan hne
  refine ⟨h1, h2, by omega, ?_⟩
  intro j hj1 hj2
  by_cases hj : j < pos
  · exact h4 j hj1 hj
  · have hj : j = pos := by omega
    rw [hj, hch]
    intro hcon
    exact h10 (by injection hcon)

/-- Consuming a non-newline byte as word material preserves the span
invariant. -/
theorem invSpan_literal (data : List Byte) (pos : Nat) (p : ListParser)
    (ch : Byte) (hch : data[pos]? = some ch) (h10 : ch ≠ 10)
    (hspan : InvSpan data pos p) :
    InvSpan data (pos + 1) (literalByte p (pos + 1)) := by
  unfold InvSpan literalByte
  dsimp only
  intro _
  by_cases hts : p.token_start = 0
  · rw [if_pos hts]
    refine ⟨by omega, by omega, by omega, ?_⟩
    intro j hj1 hj2
    have hj : j = pos := by omega
    rw [hj, hch]
    intro hcon
    exact h10 (by injection hcon)
  · rw [if_neg hts]
    obtain ⟨h1, h2, h3, h4⟩ := hspan hts
    refine ⟨h1, by omega, by omega, ?_⟩
    intro j hj1 hj2
    by_cases hj : j < pos
    · exact h4 j hj1 hj
    · have hj : j = pos := by omega
      rw [hj, hch]
      intro hcon
      exact h10 (by injection hcon)

/-- The slice flushed from a valid open span is a good fragment. -/
theorem fragGood_slice (data : List Byte) (P : List Byte → Prop)
    (pos : Nat) (p : ListParser) (hspan : InvSpan data pos p)
    (hts : p.token_start ≠ 0) (hpos : pos ≤ data.length) :
    FragGood data P (Frag.slice p.token_start p.token_end) := by
  obtain ⟨h1, h2, h3, h4⟩ := hspan hts
  exact ⟨h1, h2, by omega, fun j hj1 hj2 => h4 j hj1 (by omega)⟩

/-- `add_token` preserves fragment goodness. -/
theorem tokens_good_add_token (data : List Byte) (P : List Byte → Prop)
    (pos : Nat) (p : ListParser) (b : Bool)
    (hg : ∀ f ∈ p.tokens, FragGood data P f)
    (hspan : InvSpan data pos p) (hpos : pos ≤ data.length) :
    ∀ f ∈ (add_token p b).tokens, FragGood data P f := by
  by_cases hts : p.token_start > 0
  · have hslice := fragGood_slice data P pos p hspan (by omega) hpos
    have hmix : ∀ f ∈ (if p.tokens = [] then p.tokens
        else p.tokens ++ [Frag.space]) ++
          [Frag.slice p.token_start p.token_end],
        FragGood data P f := by
      intro f hf
      rw [List.mem_append] at hf
      rcases hf with hf | hf
      · by_cases ht : p.tokens = []
        · rw [if_pos ht, ht] at hf
          simp at hf
        · rw [if_neg ht] at hf
          rw [List.mem_append] at hf
          rcases hf with hf | hf
          · exact hg f hf
          · rw [List.mem_singleton] at hf
            rw [hf]
            exact trivial
      · rw [List.mem_singleton] at hf
        rw [hf]
        exact hslice
    cases b
    · rw [add_token_tokens_false p hts]
      exact hmix
    · rw [add_token_tokens_true p hts]
      intro f hf
      rw [List.mem_append] at hf
      rcases hf with hf | hf
      · exact hmix f hf
      · rw [List.mem_singleton] at hf
        rw [hf]
        exact trivial
  · rw [add_token_ts0 p b (by omega)]
    exact hg

/-- `add_tokens_to_list` preserves fragment goodness (it clears or
keeps the fragments). -/
theorem tokens_good_attl (data : List Byte) (P : List Byte → Prop)
    (data2 : List Byte) (p : ListParser)
    (hg : ∀ f ∈ p.tokens, FragGood data P f) :
    ∀ f ∈ (add_tokens_to_list data2 p).tokens, FragGood data P f := by
  unfold add_tokens_to_list
  split
  · exact hg
  · intro f hf
    simp at hf

/-- A good fragment renders to bytes satisfying `P`. -/
theorem P_renderFrag (data : List Byte) (P : List Byte → Prop)
    (hP32 : P [32])
    (hPextr : ∀ s e, 1 ≤ s → s ≤ e → e ≤ data.length →
      (∀ j, s - 1 ≤ j → j < e → data[j]? ≠ some 10) →
      P (extract data (s - 1) e))
    (f : Frag) (hf : FragGood data P f) : P (renderFrag data f) := by
  cases f with
  | space => exact hP32
  | slice s e => exact hPextr s e hf.1 hf.2.1 hf.2.2.1 hf.2.2.2
  | decoded t => exact hf

/-- A non-empty sequence of good fragments concatenates to an entry
satisfying `P`. -/
theorem P_renderTokens (data : List Byte) (P : List Byte → Prop)
    (hP32 : P [32])
    (hPapp : ∀ a b, P a → P b → P (a ++ b))
    (hPextr : ∀ s e, 1 ≤ s → s ≤ e → e ≤ data.length →
      (∀ j, s - 1 ≤ j → j < e → data[j]? ≠ some 10) →
      P (extract data (s - 1) e)) :
    ∀ l : List Frag, l ≠ [] → (∀ f ∈ l, FragGood data P f) →
      P (renderTokens data l) := by
  intro l
  induction l with
  | nil => exact fun h _ => absurd rfl h
  | cons f fs ih =>
    intro _ hg
    cases fs with
    | nil =>
      have : renderTokens data [f] = renderFrag data f := by
        simp [renderTokens]
      rw [this]
      exact P_renderFrag data P hP32 hPextr f (hg f (by simp))
    | cons g t =>
      have : renderTokens data (f :: g :: t) =
          renderFrag data f ++ renderTokens data (g :: t) := by
        simp [renderTokens]
      rw [this]
      exact hPapp _ _
        (P_renderFrag data P hP32 hPextr f (hg f (by simp)))
        (ih (by simp) fun x hx => hg x (List.mem_cons_of_mem f hx))

/-- `add_tokens_to_list` preserves goodness of the entry list. -/
theorem list_good_attl (data : List Byte) (P : List Byte → Prop)
    (hP32 : P [32])
    (hPapp : ∀ a b, P a → P b → P (a ++ b))
    (hPextr : ∀ s e, 1 ≤ s → s ≤ e → e ≤ data.length →
      (∀ j, s - 1 ≤ j → j < e → data[j]? ≠ some 10) →
      P (extract data (s - 1) e))
    (p : ListParser)
    (hg : ∀ f ∈ p.tokens, FragGood data P f)
    (hl : ∀ e ∈ p.list, P e) :
    ∀ e ∈ (add_tokens_to_list data p).list, P e := by
  unfold add_tokens_to_list
  split
  · exact hl
  · rename_i ht
    dsimp only
    intro e he
    rw [List.mem_append] at he
    rcases he with he | he
    · exact hl e he
    · rw [List.mem_singleton] at he
      rw [he]
      exact P_renderTokens data P hP32 hPapp hPextr p.tokens ht hg

/-- Prepending a traced state whose entries are good preserves the
content conclusion. -/
theorem conclP_step (P : List Byte → Prop) (p : ListParser)
    (r : HeaderValue × List ListParser × Option (List (List Byte)))
    (hp : ∀ e ∈ p.list, P e) (h : ConclP P r) :
    ConclP P (r.1, p :: r.2.1, r.2.2) := by
  constructor
  · intro q hq
    rcases List.mem_cons.mp hq with rfl | hq
    · exact hp
    · exact h.1 q hq
  · exact h.2

/-- `pushDecoded` never touches the entry list. -/
theorem pushDecoded_list (p : ListParser) (t : List Byte) :
    (pushDecoded p t).list = p.list := rfl

/-- Pushing a decoded fragment whose text satisfies `P` preserves
fragment goodness. -/
theorem tokens_good_pushDecoded (data : List Byte) (P : List Byte → Prop)
    (p : ListParser) (t : List Byte)
    (hg : ∀ f ∈ p.tokens, FragGood data P f) (ht : P t) :
    ∀ f ∈ (pushDecoded p t).tokens, FragGood data P f := by
  unfold pushDecoded
  dsimp only
  intro f hf
  rw [List.mem_append] at hf
  rcases hf with hf | hf
  · exact hg f hf
  · rw [List.mem_singleton] at hf
    rw [hf]
    exact ht

/-- Content master lemma: when the decoder only produces texts
satisfying `P`, `P` holds for the single-space separator, `P` is closed
under concatenation, and `P` holds for every newline-free valid slice
of the input, then every entry of every traced state and of the final
flushed list satisfies `P`. -/
theorem loop_content (data : List Byte) (dec : Decoder)
    (P : List Byte → Prop)
    (hPdec : ∀ i t k, dec i = some (t, k) → P t)
    (hP32 : P [32])
    (hPapp : ∀ a b, P a → P b → P (a ++ b))
    (hPextr : ∀ s e, 1 ≤ s → s ≤ e → e ≤ data.length →
      (∀ j, s - 1 ≤ j → j < e → data[j]? ≠ some 10) →
      P (extract data (s - 1) e)) :
    ∀ (fuel : Nat) (remaining : List Byte) (pos : Nat) (p : ListParser),
      InvContent data P pos remaining p →
      ConclP P (parseLoopT data dec fuel remaining pos p) := by
  intro fuel
  induction fuel with
  | zero =>
    intro remaining pos p hinv
    cases remaining <;>
      (refine ⟨fun q hq => ?_, fun l hl => nomatch hl⟩;
       simp only [parseLoopT, List.mem_singleton] at hq;
       rw [hq];
       exact hinv.2.2.2)
  | succ fuel ih =>
    intro remaining pos p hinv
    obtain ⟨hcoh, hspan, htok, hlist⟩ := hinv
    cases remaining with
    | nil =>
      refine ⟨fun q hq => ?_, fun l hl => nomatch hl⟩
      simp only [parseLoopT, List.mem_singleton] at hq
      rw [hq]
      exact hlist
    | cons ch rest =>
      have hlt : pos < data.length := pos_lt_of_drop_cons data rest pos ch hcoh
      have hcoh1 : data.drop (pos + 1) = rest :=
        drop_succ_of_drop_cons data rest pos ch hcoh
      have hch : data[pos]? = some ch :=
        getElem?_of_drop_cons data rest pos ch hcoh
      simp only [parseLoopT]
      refine conclP_step P p _ hlist ?_
      split
      · split
        · exact ih rest (pos + 1) _
            ⟨hcoh1,
             invSpan_closed data (pos + 1) _ (add_token_start_zero p false),
             tokens_good_add_token data P pos p false htok hspan (by omega),
             by rw [add_token_list p false]; exact hlist⟩
        · refine ⟨fun q hq => absurd hq (List.not_mem_nil q), fun l hl => ?_⟩
          have hl2 : (add_tokens_to_list data (add_token p false)).list = l :=
            Option.some.inj hl
          rw [← hl2]
          exact list_good_attl data P hP32 hPapp hPextr (add_token p false)
            (tokens_good_add_token data P pos p false htok hspan (by omega))
            (by rw [add_token_list p false]; exact hlist)
      · rename_i hch10
        split
        · exact ih rest (pos + 1) { p with is_token_start := true }
            ⟨hcoh1, invSpan_skip data pos p ch hch hch10 hspan, htok, hlist⟩
        · split
          · split
            · rename_i hws hguard t k heq
              exact ih (rest.drop k) (pos + 1 + k)
                (pushDecoded (add_token p true) t)
                ⟨drop_add_of_drop data rest (pos + 1) k hcoh1,
                 invSpan_closed data (pos + 1 + k) _
                   (add_token_start_zero p true),
                 tokens_good_pushDecoded data P (add_token p true) t
                   (tokens_good_add_token data P pos p true htok hspan
                     (by omega))
                   (hPdec (pos + 1) t k heq),
                 by rw [pushDecoded_list, add_token_list p true]; exact hlist⟩
            · exact ih rest (pos + 1) (literalByte p (pos + 1))
                ⟨hcoh1, invSpan_literal data pos p ch hch hch10 hspan,
                 htok, hlist⟩
          · split
            · refine ih rest (pos + 1)
                (add_tokens_to_list data (add_token p false))
                ⟨hcoh1, ?_,
                 tokens_good_attl data P data (add_token p false)
                   (tokens_good_add_token data P pos p false htok hspan
                     (by omega)),
                 list_good_attl data P hP32 hPapp hPextr (add_token p false)
                   (tokens_good_add_token data P pos p false htok hspan
                     (by omega))
                   (by rw [add_token_list p false]; exact hlist)⟩
              refine invSpan_closed data (pos + 1) _ ?_
              rw [attl_token_start]
              exact add_token_start_zero p false
            · split
              · exact ih rest (pos + 1) p
                  ⟨hcoh1, invSpan_skip data pos p ch hch hch10 hspan,
                   htok, hlist⟩
              · exact ih rest (pos + 1) (literalByte p (pos + 1))
                  ⟨hcoh1, invSpan_literal data pos p ch hch hch10 hspan,
                   htok, hlist⟩

/-- Shaping then reading the entries gives back the entry list. -/
theorem resultEntries_shape (l : List (List Byte)) :
    resultEntries (shapeResult l) = l := by
  match l with
  | [] => rfl
  | [e] => rfl
  | a :: b :: t => rfl

/-- Every entry of the returned value satisfies `P`, under the same
conditions as `loop_content`. -/
theorem result_content (data : List Byte) (dec : Decoder)
    (P : List Byte → Prop)
    (hPdec : ∀ i t k, dec i = some (t, k) → P t)
    (hP32 : P [32])
    (hPapp : ∀ a b, P a → P b → P (a ++ b))
    (hPextr : ∀ s e, 1 ≤ s → s ≤ e → e ≤ data.length →
      (∀ j, s - 1 ≤ j → j < e → data[j]? ≠ some 10) →
      P (extract data (s - 1) e)) :
    (∀ q ∈ parse_trace data dec, ∀ e ∈ q.list, P e) ∧
    (∀ e ∈ resultEntries (parse_comma_separared data dec), P e) := by
  have hinit : InvContent data P 0 data ListParser.init :=
    ⟨List.drop_zero data, invSpan_closed data 0 ListParser.init rfl,
     fun f hf => by simp [ListParser.init] at hf,
     fun e he => by simp [ListParser.init] at he⟩
  have master := loop_content data dec P hPdec hP32 hPapp hPextr
    (data.length + 1) data 0 ListParser.init hinit
  refine ⟨master.1, ?_⟩
  have hs := parse_shape data dec (data.length + 1) data 0 ListParser.init
  cases hfin :
      (parseLoopT data dec (data.length + 1) data 0 ListParser.init).2.2 with
  | none =>
    intro e he
    unfold parse_comma_separared at he
    rw [hs.1 hfin] at he
    simp [resultEntries] at he
  | some l =>
    intro e he
    unfold parse_comma_separared at he
    rw [hs.2 l hfin, resultEntries_shape] at he
    exact master.2 l hfin e he

-- Claim C4.

/-- Claim C4 (amended): provided every successfully decoded
encoded-word text is non-empty, no entry pushed onto the result list —
in any traced state or in the returned `Text` / `TextList` value — is
the empty string; in particular an all-whitespace span between commas,
a leading comma, or a pure-whitespace field never produces an entry.
(An encoded word decoding to empty text, legal under RFC 2047, does
produce an empty entry; see the counterexample.) -/
theorem c4_entries_nonempty (data : List Byte) (dec : Decoder)
    (hdec : ∀ i t k, dec i = some (t, k) → t ≠ []) :
    (∀ q ∈ parse_trace data dec, ∀ e ∈ q.list, e ≠ []) ∧
    (∀ e ∈ resultEntries (parse_comma_separared data dec), e ≠ []) := by
  refine result_content data dec (fun t => t ≠ []) hdec (by simp)
    (fun a b ha _ hc => ha (List.append_eq_nil.mp hc).1) ?_
  intro s e h1 h2 h3 _ hc
  have hlen := congrArg List.length hc
  unfold extract at hlen
  rw [List.length_drop, List.length_take] at hlen
  simp at hlen
  omega

/-- Claim C4 (counterexample to the claim as stated): with the decoder
succeeding on `"=?A?="` with the empty decoded text (an empty
encoded-text part is legal under RFC 2047), the input `"=?A?=\n"`
produces `Text("")` — an empty entry string in the result. -/
theorem c4_counterexample :
    parse_comma_separared [61, 63, 65, 63, 61, 10] decEmpty =
      HeaderValue.Text [] := by
  decide

/-- Witness instantiating `c4_entries_nonempty` with the always-failing
decoder on the input `"a\n"`. -/
theorem c4_entries_nonempty_witness :
    (∀ q ∈ parse_trace [97, 10] failDec, ∀ e ∈ q.list, e ≠ []) ∧
    (∀ e ∈ resultEntries (parse_comma_separared [97, 10] failDec),
      e ≠ []) :=
  c4_entries_nonempty [97, 10] failDec (fun _ _ _ h => nomatch h)

-- Claim C7.

/-- Claim C7 (amended): a newline byte whose immediately following byte
is a space or tab never causes `parse_comma_separared` to return — the
scan folds and continues — and, provided every successfully decoded
encoded-word text is newline-free, no entry string in the result
contains a line-break byte.  The further assertion that the output
equals that of the input with the fold replaced by a single space
separator is false (see the counterexample): interior whitespace of a
word is kept verbatim in the slice, while a fold flushes the word and
collapses the surrounding whitespace to one injected space. -/
theorem c7_fold_behaviour :
    (∀ (data : List Byte) (dec : Decoder) (fuel pos : Nat)
       (p : ListParser) (rest : List Byte),
      rest.head? = some 32 ∨ rest.head? = some 9 →
      parseLoopT data dec (fuel + 1) (10 :: rest) pos p =
        ((parseLoopT data dec fuel rest (pos + 1) (add_token p false)).1,
         p :: (parseLoopT data dec fuel rest (pos + 1)
            (add_token p false)).2.1,
         (parseLoopT data dec fuel rest (pos + 1)
            (add_token p false)).2.2)) ∧
    (∀ (data : List Byte) (dec : Decoder),
      (∀ i t k, dec i = some (t, k) → ¬10 ∈ t) →
      ∀ e ∈ resultEntries (parse_comma_separared data dec), ¬10 ∈ e) := by
  constructor
  · exact fun data dec fuel pos p rest h =>
      parseLoopT_nl_fold data dec fuel pos p rest h
  · intro data dec hdec
    refine (result_content data dec (fun t => ¬10 ∈ t) hdec (by simp)
      (fun a b ha hb hc => by
        rcases List.mem_append.mp hc with hc | hc
        · exact ha hc
        · exact hb hc) ?_).2
    intro s e h1 h2 h3 h4 hc
    obtain ⟨i, hi⟩ := List.mem_iff_getElem?.mp hc
    unfold extract at hi
    rw [List.getElem?_drop] at hi
    rw [List.getElem?_take] at hi
    by_cases hlt : s - 1 + i < e
    · rw [if_pos hlt] at hi
      exact h4 (s - 1 + i) (by omega) hlt hi
    · rw [if_neg hlt] at hi
      exact nomatch hi

/-- Claim C7 (counterexample to the space-replacement equality): the
folded input `"a\n  b\n"` yields `Text("a b")`, but replacing the fold
by a single space — whether the `\n` alone (`"a   b\n"`) or the `\n`
together with its continuation byte (`"a  b\n"`) — yields an entry with
the interior whitespace kept verbatim, a different string. -/
theorem c7_counterexample :
    parse_comma_separared [97, 10, 32, 32, 98, 10] failDec =
      HeaderValue.Text [97, 32, 98] ∧
    parse_comma_separared [97, 32, 32, 98, 10] failDec =
      HeaderValue.Text [97, 32, 32, 98] ∧
    parse_comma_separared [97, 32, 32, 32, 98, 10] failDec =
      HeaderValue.Text [97, 32, 32, 32, 98] := by
  decide

/-- Witness instantiating both parts of `c7_fold_behaviour`: a concrete
folded step, and newline-freedom of the entries of `"a\n b\n"`. -/
theorem c7_fold_behaviour_witness :
    parseLoopT [] failDec 1 [10, 32] 0 ListParser.init =
      ((parseLoopT [] failDec 0 [32] (0 + 1)
          (add_token ListParser.init false)).1,
       ListParser.init :: (parseLoopT [] failDec 0 [32] (0 + 1)
          (add_token ListParser.init false)).2.1,
       (parseLoopT [] failDec 0 [32] (0 + 1)
          (add_token ListParser.init false)).2.2) ∧
    (∀ e ∈ resultEntries (parse_comma_separared [97, 10, 32, 98, 10] failDec),
      ¬10 ∈ e) :=
  ⟨c7_fold_behaviour.1 [] failDec 0 0 ListParser.init [32] (Or.inl rfl),
   c7_fold_behaviour.2 [97, 10, 32, 98, 10] failDec
     (fun _ _ _ h => nomatch h)⟩

-- Claim C3.

/-- Claim C3 (amended): a carriage-return byte is always consumed with
no parser-state change whatsoever, regardless of surrounding context —
it never opens, extends, flushes or terminates a word — so carriage
returns adjacent to word boundaries never reach the output; but because
entries are contiguous slices of the input, a `\r` lying strictly
between two significant bytes of one word remains verbatim in the
entry (see the counterexample). -/
theorem c3_cr_no_state_change :
    (∀ (data : List Byte) (dec : Decoder) (fuel pos : Nat)
       (p : ListParser) (rest : List Byte),
      parseLoopT data dec (fuel + 1) (13 :: rest) pos p =
        ((parseLoopT data dec fuel rest (pos + 1) p).1,
         p :: (parseLoopT data dec fuel rest (pos + 1) p).2.1,
         (parseLoopT data dec fuel rest (pos + 1) p).2.2)) ∧
    parse_comma_separared [13, 97, 13, 10] failDec =
      HeaderValue.Text [97] := by
  exact ⟨fun data dec fuel pos p rest =>
    parseLoopT_cr data dec fuel pos p rest, by decide⟩

/-- Claim C3 (counterexample to the claim as stated): in the input
`"a\rb\n"` the carriage return sits strictly inside the word span, so
the flushed slice — and hence the returned `Text` entry — contains the
`\r` byte (13), contradicting the assertion that no `\r` byte ever
appears in any entry string. -/
theorem c3_cr_counterexample :
    parse_comma_separared [97, 13, 98, 10] failDec =
      HeaderValue.Text [97, 13, 98] := by
  decide

-- Claim C6.

/-- Claim C6 (confirmed): when a `=` at a word-start position is
followed by `?` but the encoded-word decode fails, the cursor is
restored to the pre-attempt position (just after the consumed `=`) and
scanning resumes with ordinary literal-byte classification of the `=`;
consequently the malformed bytes are folded verbatim into the
surrounding plain-text token — as in the concrete input `"a =?x\n"`,
which parses to `Text("a =?x")` — no diagnostic is surfaced, and the
parse still returns through the ordinary three-shape result path. -/
theorem c6_malformed_ew_fallback :
    (∀ (data : List Byte) (dec : Decoder) (fuel pos : Nat)
       (p : ListParser) (rest : List Byte),
      p.is_token_start = true → rest.head? = some 63 →
      dec (pos + 1) = none →
      parseLoopT data dec (fuel + 1) (61 :: rest) pos p =
        ((parseLoopT data dec fuel rest (pos + 1)
            (literalByte p (pos + 1))).1,
         p :: (parseLoopT data dec fuel rest (pos + 1)
            (literalByte p (pos + 1))).2.1,
         (parseLoopT data dec fuel rest (pos + 1)
            (literalByte p (pos + 1))).2.2)) ∧
    parse_comma_separared [97, 32, 61, 63, 120, 10] failDec =
      HeaderValue.Text [97, 32, 61, 63, 120] := by
  exact ⟨fun data dec fuel pos p rest h1 h2 h3 =>
    parseLoopT_ew_none data dec fuel pos p rest h1 h2 h3, by decide⟩

/-- Witness instantiating the failed-decode step of
`c6_malformed_ew_fallback` at a concrete state and input. -/
theorem c6_malformed_ew_fallback_witness :
    parseLoopT [] failDec 1 [61, 63] 0 ListParser.init =
      ((parseLoopT [] failDec 0 [63] (0 + 1)
          (literalByte ListParser.init (0 + 1))).1,
       ListParser.init :: (parseLoopT [] failDec 0 [63] (0 + 1)
          (literalByte ListParser.init (0 + 1))).2.1,
       (parseLoopT [] failDec 0 [63] (0 + 1)
          (literalByte ListParser.init (0 + 1))).2.2) :=
  c6_malformed_ew_fallback.1 [] failDec 0 0 ListParser.init [63]
    rfl rfl rfl

-- The scan loop on the result-and-final-list view (`runOut`), for
-- compositional reasoning.

/-- Exhausted stream, `runOut` view. -/
theorem runOut_nil (data : List Byte) (dec : Decoder) (fuel pos : Nat)
    (p : ListParser) :
    runOut data dec fuel [] pos p = (HeaderValue.Empty, none) := by
  unfold runOut
  rw [parseLoopT_nil]

/-- Fold-continuation newline, `runOut` view. -/
theorem runOut_nl_fold (data : List Byte) (dec : Decoder)
    (fuel pos : Nat) (p : ListParser) (rest : List Byte)
    (h : rest.head? = some 32 ∨ rest.head? = some 9) :
    runOut data dec (fuel + 1) (10 :: rest) pos p =
      runOut data dec fuel rest (pos + 1) (add_token p false) := by
  unfold runOut
  rw [parseLoopT_nl_fold data dec fuel pos p rest h]

/-- Returning newline, `runOut` view. -/
theorem runOut_nl_ret (data : List Byte) (dec : Decoder)
    (fuel pos : Nat) (p : ListParser) (rest : List Byte)
    (h : ¬(rest.head? = some 32 ∨ rest.head? = some 9)) :
    runOut data dec (fuel + 1) (10 :: rest) pos p =
      (shapeResult (add_tokens_to_list data (add_token p false)).list,
       some (add_tokens_to_list data (add_token p false)).list) := by
  unfold runOut
  rw [parseLoopT_nl_ret data dec fuel pos p rest h]

/-- Space or tab, `runOut` view. -/
theorem runOut_ws (data : List Byte) (dec : Decoder)
    (fuel pos : Nat) (p : ListParser) (rest : List Byte) (ch : Byte)
    (h : ch = 32 ∨ ch = 9) :
    runOut data dec (fuel + 1) (ch :: rest) pos p =
      runOut data dec fuel rest (pos + 1)
        { p with is_token_start := true } := by
  unfold runOut
  rw [parseLoopT_ws data dec fuel pos p rest ch h]

/-- Successful encoded-word decode, `runOut` view. -/
theorem runOut_ew_some (data : List Byte) (dec : Decoder)
    (fuel pos : Nat) (p : ListParser) (rest t : List Byte) (k : Nat)
    (hts : p.is_token_start = true) (hpk : rest.head? = some 63)
    (hdec : dec (pos + 1) = some (t, k)) :
    runOut data dec (fuel + 1) (61 :: rest) pos p =
      runOut data dec fuel (rest.drop k) (pos + 1 + k)
        (pushDecoded (add_token p true) t) := by
  unfold runOut
  rw [parseLoopT_ew_some data dec fuel pos p rest t k hts hpk hdec]

/-- Failed encoded-word decode, `runOut` view. -/
theorem runOut_ew_none (data : List Byte) (dec : Decoder)
    (fuel pos : Nat) (p : ListParser) (rest : List Byte)
    (hts : p.is_token_start = true) (hpk : rest.head? = some 63)
    (hdec : dec (pos + 1) = none) :
    runOut data dec (fuel + 1) (61 :: rest) pos p =
      runOut data dec fuel rest (pos + 1) (literalByte p (pos + 1)) := by
  unfold runOut
  rw [parseLoopT_ew_none data dec fuel pos p rest hts hpk hdec]

/-- Comma, `runOut` view. -/
theorem runOut_comma (data : List Byte) (dec : Decoder)
    (fuel pos : Nat) (p : ListParser) (rest : List Byte) :
    runOut data dec (fuel + 1) (44 :: rest) pos p =
      runOut data dec fuel rest (pos + 1)
        (add_tokens_to_list data (add_token p false)) := by
  unfold runOut
  rw [parseLoopT_comma data dec fuel pos p rest]

/-- Carriage return, `runOut` view. -/
theorem runOut_cr (data : List Byte) (dec : Decoder)
    (fuel pos : Nat) (p : ListParser) (rest : List Byte) :
    runOut data dec (fuel + 1) (13 :: rest) pos p =
      runOut data dec fuel rest (pos + 1) p := by
  unfold runOut
  rw [parseLoopT_cr data dec fuel pos p rest]

/-- Literal byte, `runOut` view. -/
theorem runOut_other (data : List Byte) (dec : Decoder)
    (fuel pos : Nat) (p : ListParser) (rest : List Byte) (ch : Byte)
    (h10 : ch ≠ 10) (hws : ¬(ch = 32 ∨ ch = 9))
    (h61 : ¬(ch = 61 ∧ p.is_token_start = true ∧ rest.head? = some 63))
    (h44 : ch ≠ 44) (h13 : ch ≠ 13) :
    runOut data dec (fuel + 1) (ch :: rest) pos p =
      runOut data dec fuel rest (pos + 1) (literalByte p (pos + 1)) := by
  unfold runOut
  rw [parseLoopT_other data dec fuel pos p rest ch h10 hws h61 h44 h13]

/-- Overwriting `is_token_start` with its current value is the
identity. -/
theorem setIts_eq (p : ListParser) (h : p.is_token_start = true) :
    ({ p with is_token_start := true } : ListParser) = p := by
  cases p
  simp only at h
  rw [h]

/-- `add_token` always leaves `is_token_start` set when it was set. -/
theorem add_token_its_true (p : ListParser) (b : Bool)
    (h : p.is_token_start = true) :
    (add_token p b).is_token_start = true := by
  by_cases hts : p.token_start > 0
  · exact (add_token_fields p b hts).2.2.1
  · rw [add_token_ts0 p b (by omega)]
    exact h

/-- The first byte seen after a whitespace run. -/
theorem head?_append_fws (w rest : List Byte) :
    (w ++ rest).head? = fws_next w rest.head? := by
  cases w <;> rfl

/-- Scanning a pure folding-whitespace run from a state with no open
word and `is_token_start` set leaves the parser state untouched and
just advances the cursor. -/
theorem runOut_foldws (data : List Byte) (dec : Decoder)
    (w rest : List Byte) (hfw : FoldWs rest.head? w) :
    ∀ (fuel pos : Nat) (p : ListParser),
      p.token_start = 0 → p.is_token_start = true →
      runOut data dec (fuel + w.length) (w ++ rest) pos p =
        runOut data dec fuel rest (pos + w.length) p := by
  induction hfw with
  | nil =>
    intro fuel pos p _ _
    simp
  | sp hw ih =>
    rename_i w'
    intro fuel pos p hts hits
    rw [List.cons_append, List.length_cons,
      show fuel + (w'.length + 1) = (fuel + w'.length) + 1 from rfl,
      runOut_ws data dec (fuel + w'.length) pos p (w' ++ rest) 32
        (Or.inl rfl),
      setIts_eq p hits, ih fuel (pos + 1) p hts hits,
      show pos + 1 + w'.length = pos + (w'.length + 1) from by omega]
  | tab hw ih =>
    rename_i w'
    intro fuel pos p hts hits
    rw [List.cons_append, List.length_cons,
      show fuel + (w'.length + 1) = (fuel + w'.length) + 1 from rfl,
      runOut_ws data dec (fuel + w'.length) pos p (w' ++ rest) 9
        (Or.inr rfl),
      setIts_eq p hits, ih fuel (pos + 1) p hts hits,
      show pos + 1 + w'.length = pos + (w'.length + 1) from by omega]
  | cr hw ih =>
    rename_i w'
    intro fuel pos p hts hits
    rw [List.cons_append, List.length_cons,
      show fuel + (w'.length + 1) = (fuel + w'.length) + 1 from rfl,
      runOut_cr data dec (fuel + w'.length) pos p (w' ++ rest),
      ih fuel (pos + 1) p hts hits,
      show pos + 1 + w'.length = pos + (w'.length + 1) from by omega]
  | nl hw hnext ih =>
    rename_i w'
    intro fuel pos p hts hits
    have hh : (w' ++ rest).head? = some 32 ∨ (w' ++ rest).head? = some 9 := by
      rw [head?_append_fws]
      exact hnext
    rw [List.cons_append, List.length_cons,
      show fuel + (w'.length + 1) = (fuel + w'.length) + 1 from rfl,
      runOut_nl_fold data dec (fuel + w'.length) pos p (w' ++ rest) hh,
      add_token_ts0 p false hts, ih fuel (pos + 1) p hts hits,
      show pos + 1 + w'.length = pos + (w'.length + 1) from by omega]

-- Claim C5.

/-- Claim C5 (amended): two successfully decoded encoded words
separated only by folding whitespace have their decoded texts pushed as
adjacent fragments — the entry concatenates them with zero intervening
characters — whatever precedes them; and a plain-text word followed on
the same line by a decoded encoded word is joined to it with exactly
one injected space.  The further assertion that a decoded encoded word
adjacent across any folding whitespace to a plain-text word is always
joined with one space is false: a plain word separated from a following
encoded word by a folded line break is flushed at the fold without a
trailing space and the decoded text is appended directly, yielding zero
intervening characters (see the counterexample). -/
theorem c5_encoded_word_adjacency :
    (∀ (data : List Byte) (dec : Decoder) (fuel pos : Nat)
       (p : ListParser) (r1 w r2 T1 T2 : List Byte) (k1 k2 : Nat),
      p.is_token_start = true →
      r1.head? = some 63 →
      dec (pos + 1) = some (T1, k1) →
      r1.drop k1 = w ++ 61 :: r2 →
      FoldWs (some 61) w →
      r2.head? = some 63 →
      dec (pos + 1 + k1 + w.length + 1) = some (T2, k2) →
      runOut data dec (fuel + w.length + 2) (61 :: r1) pos p =
        runOut data dec fuel (r2.drop k2)
          (pos + 1 + k1 + w.length + 1 + k2)
          (pushDecoded (pushDecoded (add_token p true) T1) T2) ∧
      (pushDecoded (pushDecoded (add_token p true) T1) T2).tokens =
        (add_token p true).tokens ++
          [Frag.decoded T1, Frag.decoded T2]) ∧
    (∀ (p : ListParser) (T : List Byte),
      p.token_start ≠ 0 → p.tokens = [] →
      (pushDecoded (add_token p true) T).tokens =
        [Frag.slice p.token_start p.token_end, Frag.space,
         Frag.decoded T]) := by
  constructor
  · intro data dec fuel pos p r1 w r2 T1 T2 k1 k2 hits hpk1 hdec1 hdrop
      hfw hpk2 hdec2
    have hts1 : (pushDecoded (add_token p true) T1).token_start = 0 :=
      add_token_start_zero p true
    have hits1 : (pushDecoded (add_token p true) T1).is_token_start = true :=
      add_token_its_true p true hits
    refine ⟨?_, by simp [pushDecoded]⟩
    rw [show fuel + w.length + 2 = ((fuel + 1) + w.length) + 1 from by omega,
      runOut_ew_some data dec ((fuel + 1) + w.length) pos p r1 T1 k1
        hits hpk1 hdec1,
      hdrop,
      runOut_foldws data dec w (61 :: r2) hfw (fuel + 1) (pos + 1 + k1)
        (pushDecoded (add_token p true) T1) hts1 hits1,
      runOut_ew_some data dec fuel (pos + 1 + k1 + w.length)
        (pushDecoded (add_token p true) T1) r2 T2 k2 hits1 hpk2 hdec2,
      add_token_ts0 (pushDecoded (add_token p true) T1) true hts1]
  · intro p T hts htok
    have hgt : p.token_start > 0 := by omega
    show (add_token p true).tokens ++ [Frag.decoded T] = _
    rw [add_token_tokens_true p hgt, if_pos htok, htok]
    simp

/-- Claim C5 (counterexample to the claim as stated): in
`"a\n =?X?=\n"` the plain word `a` and the encoded word (decoding to
`"T"`) are separated only by folding whitespace, yet the result is
`Text("aT")` — zero intervening characters instead of the exactly one
space the claim requires between a plain word and an adjacent encoded
word. -/
theorem c5_counterexample :
    parse_comma_separared [97, 10, 32, 61, 63, 88, 63, 61, 10] decT =
      HeaderValue.Text [97, 84] ∧
    parse_comma_separared [97, 10, 32, 61, 63, 88, 63, 61, 10] decT ≠
      HeaderValue.Text [97, 32, 84] := by
  decide

/-- Witness instantiating `c5_encoded_word_adjacency` on the raw bytes
of `"=?A?= =?B?="` (decoder `dec5`) and on a concrete open-word
state. -/
theorem c5_encoded_word_adjacency_witness :
    (runOut [] dec5 (0 + List.length [32] + 2)
        (61 :: [63, 65, 63, 61, 32, 61, 63]) 0 ListParser.init =
      runOut [] dec5 0 (List.drop 4 [63])
        (0 + 1 + 4 + List.length [32] + 1 + 4)
        (pushDecoded (pushDecoded (add_token ListParser.init true) [65])
          [66]) ∧
     (pushDecoded (pushDecoded (add_token ListParser.init true) [65])
        [66]).tokens =
      (add_token ListParser.init true).tokens ++
        [Frag.decoded [65], Frag.decoded [66]]) ∧
    (pushDecoded
      (add_token
        { token_start := 1, token_end := 2, is_token_start := false,
          tokens := [], list := [] } true) [84]).tokens =
      [Frag.slice 1 2, Frag.space, Frag.decoded [84]] :=
  ⟨c5_encoded_word_adjacency.1 [] dec5 0 0 ListParser.init
     [63, 65, 63, 61, 32, 61, 63] [32] [63] [65] [66] 4 4
     rfl rfl rfl rfl (FoldWs.sp FoldWs.nil) rfl rfl,
   c5_encoded_word_adjacency.2
     { token_start := 1, token_end := 2, is_token_start := false,
       tokens := [], list := [] }
     [84] (by decide) rfl⟩

-- Trimming machinery for claim C8.

/-- `takeWhile` never yields more elements than its input. -/
theorem takeWhile_len_le (p : Byte → Bool) (l : List Byte) :
    (l.takeWhile p).length ≤ l.length := by
  induction l with
  | nil => simp
  | cons a l ih =>
    rw [List.takeWhile_cons]
    split
    · simpa using ih
    · simp

/-- `dropWhile` is `drop` of the `takeWhile` length. -/
theorem dropWhile_eq_drop (p : Byte → Bool) (l : List Byte) :
    l.dropWhile p = l.drop (l.takeWhile p).length := by
  induction l with
  | cons a l ih =>
    rw [List.takeWhile_cons, List.dropWhile_cons]
    split
    · simpa using ih
    · simp
  | nil => rfl

/-- Every list splits as its right-trimmed part followed by its
trailing whitespace run. -/
theorem trimR_decomp (l : List Byte) :
    l = trimR l ++ (l.reverse.takeWhile wsb).reverse := by
  unfold trimR
  conv_lhs =>
    rw [← List.reverse_reverse l,
      ← List.takeWhile_append_dropWhile wsb l.reverse]
  rw [List.reverse_append]

/-- The trailing run removed by `trimR` is pure whitespace. -/
theorem tail_allws (l : List Byte) :
    ∀ x ∈ (l.reverse.takeWhile wsb).reverse, wsb x = true := by
  intro x hx
  exact List.mem_takeWhile_imp (List.mem_reverse.mp hx)

/-- A list whose right trim is empty is pure whitespace. -/
theorem trimR_nil_allws (l : List Byte) (h : trimR l = []) :
    ∀ x ∈ l, wsb x = true := by
  intro x hx
  have hd := trimR_decomp l
  rw [h, List.nil_append] at hd
  rw [hd] at hx
  exact tail_allws l x hx

/-- A significant byte survives the right trim. -/
theorem sig_mem_trimR (l : List Byte) (h : ∃ b ∈ l, wsb b = false) :
    ∃ b ∈ trimR l, wsb b = false := by
  obtain ⟨b, hb, hw⟩ := h
  have hd := trimR_decomp l
  rw [hd] at hb
  rcases List.mem_append.mp hb with hb | hb
  · exact ⟨b, hb, hw⟩
  · rw [tail_allws l b hb] at hw
    exact nomatch hw

/-- A list holding a significant byte has a non-empty right trim. -/
theorem trimR_ne_nil (l : List Byte) (h : ∃ b ∈ l, wsb b = false) :
    trimR l ≠ [] := by
  intro hnil
  obtain ⟨b, hb, hw⟩ := h
  rw [trimR_nil_allws l hnil b hb] at hw
  exact nomatch hw

/-- A leading whitespace run is unaffected by what follows a segment
that holds a significant byte. -/
theorem takeWhile_append_sig (xs ys : List Byte)
    (h : ∃ b ∈ xs, wsb b = false) :
    (xs ++ ys).takeWhile wsb = xs.takeWhile wsb := by
  induction xs with
  | nil =>
    obtain ⟨b, hb, _⟩ := h
    simp at hb
  | cons a xs ih =>
    obtain ⟨b, hb, hw⟩ := h
    rw [List.cons_append, List.takeWhile_cons, List.takeWhile_cons]
    split
    · rename_i ha
      rcases List.mem_cons.mp hb with rfl | hb
      · rw [ha] at hw
        exact nomatch hw
      · rw [ih ⟨b, hb, hw⟩]
    · rfl

/-- Right-trimming a cons whose tail still holds significant bytes. -/
theorem trimR_cons_ne (b : Byte) (bs : List Byte) (h : trimR bs ≠ []) :
    trimR (b :: bs) = b :: trimR bs := by
  unfold trimR at *
  have hne : (bs.reverse.dropWhile wsb).isEmpty = false := by
    rcases hcase : bs.reverse.dropWhile wsb with _ | ⟨x, xs⟩
    · rw [hcase] at h
      exact absurd rfl h
    · rfl
  rw [show (b :: bs).reverse = bs.reverse ++ [b] from by simp,
    List.dropWhile_append, if_neg (by rw [hne]; simp),
    List.reverse_append]
  simp

/-- Right-trimming a cons whose tail is pure whitespace. -/
theorem trimR_cons_nil (b : Byte) (bs : List Byte) (h : trimR bs = []) :
    trimR (b :: bs) = if wsb b then [] else [b] := by
  unfold trimR at *
  have hemp : (bs.reverse.dropWhile wsb).isEmpty = true := by
    rw [List.reverse_eq_nil_iff] at h
    rw [h]
    rfl
  rw [show (b :: bs).reverse = bs.reverse ++ [b] from by simp,
    List.dropWhile_append, if_pos (by rw [hemp])]
  rw [List.dropWhile_cons]
  by_cases hb : wsb b
  · rw [if_pos (by rw [hb]), if_pos hb]
    rfl
  · rw [if_neg (by simp [Bool.not_eq_true] at hb; rw [hb]; simp),
      if_neg hb]
    rfl

/-- Extracting a sub-slice across an explicit concatenation. -/
theorem extract_of_concat (pre T z : List Byte) (lL : Nat) :
    extract (pre ++ (T ++ z)) (pre.length + lL)
      (pre.length + T.length) = T.drop lL := by
  unfold extract
  rw [List.take_append, List.take_left, List.drop_append]

/-- The slice the scan loop flushes for a comma-free, newline-free,
`=`-free segment is exactly the whitespace-trimmed segment. -/
theorem extract_trimWs (data e rest' : List Byte) (pos : Nat)
    (hcoh : data.drop pos = e ++ rest')
    (hsig : ∃ b ∈ e, wsb b = false) :
    extract data (pos + (e.takeWhile wsb).length)
      (pos + (trimR e).length) = trimWs e := by
  have hsig' := sig_mem_trimR e hsig
  have hTW : e.takeWhile wsb = (trimR e).takeWhile wsb := by
    conv_lhs => rw [trimR_decomp e]
    exact takeWhile_append_sig _ _ hsig'
  have hposle : pos ≤ data.length := by
    have hlen : data.length - pos = e.length + rest'.length := by
      rw [← List.length_drop, hcoh, List.length_append]
    obtain ⟨b, hb, _⟩ := hsig
    have : 1 ≤ e.length := by
      cases e with
      | nil => simp at hb
      | cons x xs => simp
    omega
  have hprelen : (data.take pos).length = pos := by
    rw [List.length_take]
    omega
  have hdata : data = data.take pos ++ (e ++ rest') := by
    conv_lhs => rw [← List.take_append_drop pos data]
    rw [hcoh]
  have hsplit : e ++ rest' =
      trimR e ++ ((e.reverse.takeWhile wsb).reverse ++ rest') := by
    rw [← List.append_assoc, ← trimR_decomp e]
  have hkey := extract_of_concat (data.take pos) (trimR e)
    ((e.reverse.takeWhile wsb).reverse ++ rest')
    ((trimR e).takeWhile wsb).length
  rw [hprelen, ← hsplit, ← hdata] at hkey
  rw [hTW, hkey, trimWs, dropWhile_eq_drop]

-- Scan of a plain segment (claim C8).

/-- `wordScan` never touches the fragments or the entry list. -/
theorem wordScan_tokens_list (e : List Byte) :
    ∀ (pos : Nat) (p : ListParser),
      (wordScan pos p e).tokens = p.tokens ∧
      (wordScan pos p e).list = p.list := by
  induction e with
  | nil => exact fun pos p => ⟨rfl, rfl⟩
  | cons b bs ih =>
    intro pos p
    rw [wordScan]
    split
    · exact ih (pos + 1) _
    · split
      · exact ih (pos + 1) p
      · exact ih (pos + 1) _

/-- `wordScan` never resets an open word. -/
theorem wordScan_ts_ne (e : List Byte) :
    ∀ (pos : Nat) (p : ListParser), p.token_start ≠ 0 →
      (wordScan pos p e).token_start = p.token_start := by
  induction e with
  | nil => exact fun pos p _ => rfl
  | cons b bs ih =>
    intro pos p hts
    rw [wordScan]
    split
    · exact ih (pos + 1) _ hts
    · split
      · exact ih (pos + 1) p hts
      · have h1 : (literalByte p (pos + 1)).token_start = p.token_start := by
          unfold literalByte
          dsimp only
          rw [if_neg hts]
        rw [ih (pos + 1) _ (by rw [h1]; exact hts), h1]

/-- The word opened while scanning a segment with a significant byte
starts right at the segment's first significant byte. -/
theorem wordScan_ts (e : List Byte) :
    ∀ (pos : Nat) (p : ListParser), p.token_start = 0 →
      (∃ b ∈ e, wsb b = false) →
      (wordScan pos p e).token_start =
        pos + (e.takeWhile wsb).length + 1 := by
  induction e with
  | nil =>
    intro pos p _ hsig
    obtain ⟨b, hb, _⟩ := hsig
    simp at hb
  | cons b bs ih =>
    intro pos p hts hsig
    by_cases hw : wsb b = true
    · have hsig' : ∃ x ∈ bs, wsb x = false := by
        obtain ⟨x, hx, hxw⟩ := hsig
        rcases List.mem_cons.mp hx with rfl | hx
        · rw [hw] at hxw
          exact nomatch hxw
        · exact ⟨x, hx, hxw⟩
      have hfold : (wordScan pos p (b :: bs)).token_start =
          (wordScan (pos + 1) p bs).token_start ∨
          (wordScan pos p (b :: bs)).token_start =
          (wordScan (pos + 1)
            { p with is_token_start := true } bs).token_start := by
        rw [wordScan]
        by_cases h1 : b = 32 ∨ b = 9
        · rw [if_pos h1]
          exact Or.inr rfl
        · have h2 : b = 13 := by
            simp [wsb] at hw
            tauto
          rw [if_neg h1, if_pos h2]
          exact Or.inl rfl
      have htw : ((b :: bs).takeWhile wsb).length =
          (bs.takeWhile wsb).length + 1 := by
        rw [List.takeWhile_cons, if_pos hw]
        simp
      rcases hfold with hf | hf
      · rw [hf, ih (pos + 1) p hts hsig', htw]
        omega
      · rw [hf, ih (pos + 1) { p with is_token_start := true } hts hsig',
          htw]
        omega
    · have hb1 : ¬(b = 32 ∨ b = 9) := by
        simp [wsb] at hw
        tauto
      have hb2 : b ≠ 13 := by
        simp [wsb] at hw
        tauto
      have htw : (b :: bs).takeWhile wsb = [] := by
        rw [List.takeWhile_cons, if_neg hw]
      rw [wordScan, if_neg hb1, if_neg hb2,
        wordScan_ts_ne bs (pos + 1) (literalByte p (pos + 1))
          (by unfold literalByte; dsimp only; rw [if_pos hts]; omega)]
      unfold literalByte
      dsimp only
      rw [if_pos hts, htw]
      simp
/-- The scanned word's end lands right after the segment's last
significant byte. -/
theorem wordScan_te (e : List Byte) :
    ∀ (pos : Nat) (p : ListParser),
      (wordScan pos p e).token_end =
        if trimR e = [] then p.token_end else pos + (trimR e).length := by
  induction e with
  | nil =>
    intro pos p
    simp [wordScan, trimR]
  | cons b bs ih =>
    intro pos p
    by_cases hw : wsb b = true
    · have hstep : (wordScan pos p (b :: bs)).token_end =
          (wordScan (pos + 1) p bs).token_end ∨
          (wordScan pos p (b :: bs)).token_end =
          (wordScan (pos + 1)
            { p with is_token_start := true } bs).token_end := by
        rw [wordScan]
        by_cases h1 : b = 32 ∨ b = 9
        · rw [if_pos h1]
          exact Or.inr rfl
        · have h2 : b = 13 := by
            simp [wsb] at hw
            tauto
          rw [if_neg h1, if_pos h2]
          exact Or.inl rfl
      by_cases hnil : trimR bs = []
      · have htr : trimR (b :: bs) = [] := by
          rw [trimR_cons_nil b bs hnil, if_pos hw]
        rw [htr]
        rcases hstep with hf | hf <;>
          (rw [hf, ih (pos + 1) _, if_pos hnil]; rw [if_pos rfl])
      · have htr : trimR (b :: bs) = b :: trimR bs :=
          trimR_cons_ne b bs hnil
        rw [htr]
        rcases hstep with hf | hf <;>
          (rw [hf, ih (pos + 1) _, if_neg hnil,
            if_neg (by simp)]; simp; omega)
    · have hb1 : ¬(b = 32 ∨ b = 9) := by
        simp [wsb] at hw
        tauto
      have hb2 : b ≠ 13 := by
        simp [wsb] at hw
        tauto
      rw [wordScan, if_neg hb1, if_neg hb2, ih (pos + 1) _]
      by_cases hnil : trimR bs = []
      · rw [if_pos hnil,
          trimR_cons_nil b bs hnil,
          if_neg hw]
        unfold literalByte
        dsimp only
        rw [if_neg (by simp)]
        simp
      · rw [if_neg hnil, trimR_cons_ne b bs hnil,
          if_neg (by simp)]
        simp
        omega

/-- Flushing at the end of a plain segment appends exactly the trimmed
segment as one entry and leaves the parser ready for the next one. -/
theorem flush_entry (data e rest' : List Byte) (pos : Nat)
    (p : ListParser) (hcoh : data.drop pos = e ++ rest')
    (hsig : ∃ b ∈ e, wsb b = false)
    (hts : p.token_start = 0) (htok : p.tokens = []) :
    (add_tokens_to_list data (add_token (wordScan pos p e) false)).list =
      p.list ++ [trimWs e] ∧
    (add_tokens_to_list data
      (add_token (wordScan pos p e) false)).tokens = [] ∧
    (add_tokens_to_list data
      (add_token (wordScan pos p e) false)).token_start = 0 := by
  have hqtl := wordScan_tokens_list e pos p
  have hqts : (wordScan pos p e).token_start =
      pos + (e.takeWhile wsb).length + 1 := wordScan_ts e pos p hts hsig
  have hqte : (wordScan pos p e).token_end = pos + (trimR e).length := by
    rw [wordScan_te e pos p, if_neg (trimR_ne_nil e hsig)]
  have hgt : (wordScan pos p e).token_start > 0 := by
    rw [hqts]
    omega
  have htok2 : (add_token (wordScan pos p e) false).tokens =
      [Frag.slice (wordScan pos p e).token_start
        (wordScan pos p e).token_end] := by
    rw [add_token_tokens_false _ hgt, hqtl.1, htok]
    simp
  have hrender :
      renderTokens data (add_token (wordScan pos p e) false).tokens =
        trimWs e := by
    rw [htok2]
    show extract data ((wordScan pos p e).token_start - 1)
        (wordScan pos p e).token_end ++ [].flatten = trimWs e
    rw [hqts, hqte]
    simp only [List.flatten_nil, List.append_nil]
    rw [show pos + (e.takeWhile wsb).length + 1 - 1 =
      pos + (e.takeWhile wsb).length from by omega]
    exact extract_trimWs data e rest' pos hcoh hsig
  refine ⟨?_, ?_, ?_⟩
  · unfold add_tokens_to_list
    rw [if_neg (by rw [htok2]; simp)]
    dsimp only
    rw [add_token_list _ false, hqtl.2, hrender]
  · unfold add_tokens_to_list
    rw [if_neg (by rw [htok2]; simp)]
  · rw [attl_token_start]
    exact add_token_start_zero _ false

/-- Scanning a comma-free, newline-free, `=`-free byte run is exactly
`wordScan`. -/
theorem runOut_wordScan (data : List Byte) (dec : Decoder) :
    ∀ (e rest : List Byte) (fuel pos : Nat) (p : ListParser),
      (∀ b ∈ e, b ≠ 10 ∧ b ≠ 44 ∧ b ≠ 61) →
      runOut data dec (fuel + e.length) (e ++ rest) pos p =
        runOut data dec fuel rest (pos + e.length) (wordScan pos p e) := by
  intro e
  induction e with
  | nil =>
    intro rest fuel pos p _
    simp [wordScan]
  | cons b bs ih =>
    intro rest fuel pos p hb
    have hbh := hb b (List.mem_cons_self b bs)
    have hbs : ∀ x ∈ bs, x ≠ 10 ∧ x ≠ 44 ∧ x ≠ 61 :=
      fun x hx => hb x (List.mem_cons_of_mem b hx)
    rw [List.cons_append, List.length_cons,
      show fuel + (bs.length + 1) = (fuel + bs.length) + 1 from rfl]
    by_cases hws : b = 32 ∨ b = 9
    · rw [runOut_ws data dec (fuel + bs.length) pos p (bs ++ rest) b hws,
        ih rest fuel (pos + 1) { p with is_token_start := true } hbs,
        show wordScan pos p (b :: bs) =
          wordScan (pos + 1) { p with is_token_start := true } bs from by
            rw [wordScan, if_pos hws],
        show pos + 1 + bs.length = pos + (bs.length + 1) from by omega]
    · by_cases hcr : b = 13
      · subst hcr
        rw [runOut_cr data dec (fuel + bs.length) pos p (bs ++ rest),
          ih rest fuel (pos + 1) p hbs,
          show wordScan pos p (13 :: bs) = wordScan (pos + 1) p bs from by
            rw [wordScan, if_neg hws, if_pos rfl],
          show pos + 1 + bs.length = pos + (bs.length + 1) from by omega]
      · rw [runOut_other data dec (fuel + bs.length) pos p (bs ++ rest) b
          hbh.1 hws (fun hc => hbh.2.2 hc.1) hbh.2.1 hcr,
          ih rest fuel (pos + 1) (literalByte p (pos + 1)) hbs,
          show wordScan pos p (b :: bs) =
            wordScan (pos + 1) (literalByte p (pos + 1)) bs from by
              rw [wordScan, if_neg hws, if_neg hcr],
          show pos + 1 + bs.length = pos + (bs.length + 1) from by omega]

/-- Main induction for claim C8: parsing a newline-terminated list of
comma-separated plain segments, each holding a significant byte,
appends exactly the trimmed segments to the completed entries and
shapes them. -/
theorem runOut_entries (data : List Byte) (dec : Decoder) :
    ∀ (entries : List (List Byte)) (fuel pos : Nat) (p : ListParser),
      entries ≠ [] →
      (∀ e ∈ entries, (∀ b ∈ e, b ≠ 10 ∧ b ≠ 44 ∧ b ≠ 61) ∧
        ∃ b ∈ e, wsb b = false) →
      data.drop pos = joinComma entries ++ [10] →
      p.token_start = 0 → p.tokens = [] →
      runOut data dec (fuel + (joinComma entries).length + 1)
          (joinComma entries ++ [10]) pos p =
        (shapeResult (p.list ++ entries.map trimWs),
         some (p.list ++ entries.map trimWs)) := by
  intro entries
  induction entries with
  | nil =>
    intro fuel pos p h
    exact absurd rfl h
  | cons e es ih =>
    intro fuel pos p _ hall hcoh hts htok
    obtain ⟨hbytes, hsig⟩ := hall e (List.mem_cons_self e es)
    cases es with
    | nil =>
      rw [show joinComma [e] = e from rfl] at hcoh ⊢
      rw [show fuel + e.length + 1 = (fuel + 1) + e.length from by omega,
        runOut_wordScan data dec e [10] (fuel + 1) pos p hbytes,
        runOut_nl_ret data dec fuel (pos + e.length)
          (wordScan pos p e) [] (by simp),
        (flush_entry data e [10] pos p hcoh hsig hts htok).1]
      rfl
    | cons e2 es' =>
      have hallr : ∀ x ∈ e2 :: es',
          (∀ b ∈ x, b ≠ 10 ∧ b ≠ 44 ∧ b ≠ 61) ∧
          ∃ b ∈ x, wsb b = false :=
        fun x hx => hall x (List.mem_cons_of_mem e hx)
      rw [show joinComma (e :: e2 :: es') =
        e ++ 44 :: joinComma (e2 :: es') from rfl] at hcoh ⊢
      have hcoh2 : data.drop pos =
          e ++ (44 :: (joinComma (e2 :: es') ++ [10])) := by
        rw [hcoh, List.append_assoc, List.cons_append]
      have hcoh' : data.drop (pos + (e.length + 1)) =
          joinComma (e2 :: es') ++ [10] := by
        rw [drop_add_of_drop data
          (e ++ (44 :: (joinComma (e2 :: es') ++ [10])))
          pos (e.length + 1) hcoh2, List.drop_append]
        simp
      obtain ⟨hflist, hftok, hfts⟩ := flush_entry data e
        (44 :: (joinComma (e2 :: es') ++ [10])) pos p hcoh2 hsig hts htok
      rw [show (e ++ 44 :: joinComma (e2 :: es')).length =
          e.length + ((joinComma (e2 :: es')).length + 1) from by simp,
        List.append_assoc, List.cons_append,
        show fuel + (e.length + ((joinComma (e2 :: es')).length + 1)) + 1 =
          ((fuel + (joinComma (e2 :: es')).length + 1) + 1) + e.length
          from by omega,
        runOut_wordScan data dec e (44 :: (joinComma (e2 :: es') ++ [10]))
          ((fuel + (joinComma (e2 :: es')).length + 1) + 1) pos p hbytes,
        runOut_comma data dec (fuel + (joinComma (e2 :: es')).length + 1)
          (pos + e.length) (wordScan pos p e)
          (joinComma (e2 :: es') ++ [10]),
        ih fuel (pos + e.length + 1)
          (add_tokens_to_list data (add_token (wordScan pos p e) false))
          (by simp) hallr hcoh' hfts hftok,
        hflist]
      simp [List.append_assoc]

-- Claim C8.

/-- Claim C8 (amended): for N >= 2 comma-separated entries, each free
of newline, comma and `=` bytes (so that no encoded-word decode can
span an entry boundary) and each containing at least one significant
(non-space, non-tab, non-CR) byte, terminated by an unfolded newline,
the parse returns `TextList` with exactly N elements in left-to-right
order — each element being its segment trimmed of leading and trailing
whitespace.  Without the no-`=` proviso the claim fails: an encoded
word whose raw form spans a comma merges two textual entries (see the
counterexample). -/
theorem c8_comma_separated_list (dec : Decoder)
    (entries : List (List Byte)) (hlen : 2 ≤ entries.length)
    (hbytes : ∀ e ∈ entries, ∀ b ∈ e, b ≠ 10 ∧ b ≠ 44 ∧ b ≠ 61)
    (hsig : ∀ e ∈ entries, ∃ b ∈ e, wsb b = false) :
    parse_comma_separared (joinComma entries ++ [10]) dec =
      HeaderValue.TextList (entries.map trimWs) ∧
    (entries.map trimWs).length = entries.length := by
  have hne : entries ≠ [] := by
    intro h
    rw [h] at hlen
    simp at hlen
  have hmain := runOut_entries (joinComma entries ++ [10]) dec entries 1 0
    ListParser.init hne (fun e he => ⟨hbytes e he, hsig e he⟩)
    (by rw [List.drop_zero]) rfl rfl
  have hfuel : (joinComma entries ++ [10]).length + 1 =
      1 + (joinComma entries).length + 1 := by
    rw [List.length_append]
    simp
    omega
  have hres : parse_comma_separared (joinComma entries ++ [10]) dec =
      (runOut (joinComma entries ++ [10]) dec
        ((joinComma entries ++ [10]).length + 1)
        (joinComma entries ++ [10]) 0 ListParser.init).1 := rfl
  refine ⟨?_, by rw [List.length_map]⟩
  rw [hres, hfuel, hmain]
  show shapeResult (ListParser.init.list ++ entries.map trimWs) =
    HeaderValue.TextList (entries.map trimWs)
  rw [show ListParser.init.list ++ entries.map trimWs =
    entries.map trimWs from by simp [ListParser.init]]
  exact shapeResult_of_two_le _ (by rw [List.length_map]; exact hlen)

/-- Claim C8 (counterexample to the claim as stated): the input
`"=?U?q?a,b?=\n"` consists textually of the two comma-separated
entries `=?U?q?a` and `b?=`, each holding significant bytes and
terminated by an unfolded newline; but the RFC 2047 decoder
legitimately consumes the whole `=?U?q?a,b?=` encoded word (a comma is
a legal Q-encoded-text byte), so the parse returns the single
`Text("a,b")` instead of a `TextList` with two elements. -/
theorem c8_counterexample :
    parse_comma_separared
      [61, 63, 85, 63, 113, 63, 97, 44, 98, 63, 61, 10] decComma =
      HeaderValue.Text [97, 44, 98] := by
  decide

/-- Witness instantiating `c8_comma_separated_list` on `"a,b\n"`. -/
theorem c8_comma_separated_list_witness :
    parse_comma_separared (joinComma [[97], [98]] ++ [10]) failDec =
      HeaderValue.TextList (([[97], [98]] : List (List Byte)).map trimWs) ∧
    (([[97], [98]] : List (List Byte)).map trimWs).length =
      ([[97], [98]] : List (List Byte)).length :=
  c8_comma_separated_list failDec [[97], [98]] (by decide) (by decide)
    (by decide)
